import Mathlib

/-!
Verification development for the Time Machine snapshot manager
(`src/clean-snapshots.tsx`).

The file shallowly embeds the parts of the source the claims are about:

* `jsParseInt`, `concurrencyLimitOf` — the concurrency-preference parsing
  (`parseInt(preferences.concurrency || "3", 10)`, lines 374-377);
* `escapeSingleQuote`, `buildDeleteCommand`, `buildVerifyCommand`,
  `execShellArgv` — the shell-command construction used for the privileged
  calls (lines 77-83, 365-371, 399-403);
* `jsTrim`, `handleSubmitAction` — the password-form submit guard
  (lines 105-123);
* a small-step trace semantics of `runWithConcurrencyLimit` (lines 42-71)
  together with the per-target task body of `deleteSnapshots`
  (lines 384-473), and the result aggregation (lines 329-336, 478-500).

JavaScript numbers that matter here are either `NaN` (from an unparsable
`parseInt`) or integers, so the embedding uses an explicit `JNum` type
rather than floating point.
-/

/-- A JavaScript number as used for the concurrency limit: either `NaN`
(what `parseInt` returns on an unparsable string) or an integer. -/
inductive JNum where
  | nan : JNum
  | num : Int → JNum
deriving DecidableEq, Repr

/-- The JavaScript comparison `j <= k` for `j : JNum` against a natural
number `k`. Every comparison against `NaN` is `false`. This single function
models both guards of `runWithConcurrencyLimit`: the gate
`limit <= items.length` (line 58) and the admission check
`executing.length >= limit` (line 64), the latter read as
`limit <= executing.length`. -/
def JNum.leNat : JNum → Nat → Bool
  | .nan, _ => false
  | .num z, k => decide (z ≤ (k : Int))

/-- Digit test for `parseInt` with radix 10. -/
def isDigitChar (c : Char) : Bool := decide ('0' ≤ c) && decide (c ≤ '9')

/-- Value of a list of decimal digits (most significant first),
accumulator style, as `parseInt` reads them. -/
def digitsVal (acc : Nat) : List Char → Nat
  | [] => acc
  | c :: cs => digitsVal (acc * 10 + (c.toNat - '0'.toNat)) cs

/-- The digit-prefix part of `parseInt`: the longest leading run of decimal
digits, `NaN` when there is none. -/
def parseDigitPrefixJ (sign : Bool) (cs : List Char) : JNum :=
  let ds := cs.takeWhile isDigitChar
  if ds.isEmpty then JNum.nan
  else if sign then JNum.num (-(digitsVal 0 ds : Int)) else JNum.num (digitsVal 0 ds)

/-- JavaScript `parseInt(s, 10)`: skip leading whitespace, read an optional
sign, then the longest prefix of decimal digits; `NaN` if no digit follows.
(Trailing garbage is ignored, e.g. `parseInt("3x") = 3`.) -/
def jsParseInt (s : String) : JNum :=
  match s.data.dropWhile Char.isWhitespace with
  | '-' :: rest => parseDigitPrefixJ true rest
  | '+' :: rest => parseDigitPrefixJ false rest
  | cs => parseDigitPrefixJ false cs

/-- The concurrency limit computed by `deleteSnapshots` (line 376):
`parseInt(preferences.concurrency || "3", 10)`. In JavaScript the `||`
fallback fires exactly when the preference is absent (`undefined`) or the
empty string (the only falsy string). No clamping is performed. -/
def concurrencyLimitOf (pref : Option String) : JNum :=
  jsParseInt (match pref with
              | none => "3"
              | some s => if s = "" then "3" else s)

/-- Does `pat` match at the head of `l`? (helper for `jsIncludes`). -/
def leadMatch : List Char → List Char → Bool
  | [], _ => true
  | _ :: _, [] => false
  | p :: ps, c :: cs => p == c && leadMatch ps cs

/-- Does `pat` occur contiguously anywhere in `l`? -/
def subMatch (pat : List Char) : List Char → Bool
  | [] => leadMatch pat []
  | c :: cs => leadMatch pat (c :: cs) || subMatch pat cs

/-- JavaScript `hay.includes(pat)` on strings: contiguous substring test.
Used by the source both for the sudo rejection markers
(`stderrStr.includes("Sorry")`, line 435) and modelled here also to state
where the credential text occurs. -/
def jsIncludes (hay pat : String) : Bool := subMatch pat.data hay.data

/-- Character-level image of the regex replacement in
`pwd.replace(/'/g, "'\\''")` (lines 77 and 367-369): a single quote becomes
the four characters `'\''`; every other character is kept. The pattern is a
single character, so the global replace is exactly this per-character map. -/
def escChar (c : Char) : List Char := if c = '\'' then ['\'', '\\', '\'', '\''] else [c]

/-- `escapeSingleQuote` of the source (lines 367-369 and line 77). -/
def escapeSingleQuote (s : String) : String := String.mk (s.data.flatMap escChar)

/-- The shell command string built by the per-target deletion task
(line 401):
`printf '%s\n' '<escapedPassword>' | sudo -S /usr/bin/tmutil deletelocalsnapshots <snapshotDate>`. -/
def buildDeleteCommand (escapedPassword snapshotDate : String) : String :=
  "printf " ++ "'%s\\n' '" ++ escapedPassword ++
    "' | sudo -S /usr/bin/tmutil deletelocalsnapshots " ++ snapshotDate

/-- The shell command string built by `verifyPassword` (line 81):
`sudo -k && printf '%s\n' '<escapedPassword>' | sudo -S -v 2>&1`. -/
def buildVerifyCommand (escapedPassword : String) : String :=
  "sudo -k && printf " ++ "'%s\\n' '" ++ escapedPassword ++ "' | sudo -S -v 2>&1"

/-- Node's `child_process.exec` (used via `execAsync`) spawns the system
shell as `/bin/sh -c <command>`: the entire command string — pipeline,
quoting and all — is a single argv element of the spawned shell process. -/
def execShellArgv (command : String) : List String := ["/bin/sh", "-c", command]

/-- Reader state of the minimal POSIX-shell word reader: outside quotes,
inside single quotes, or just after an unquoted backslash. -/
inductive SQMode where
  | outside : SQMode
  | inside : SQMode
  | escaped : SQMode
deriving DecidableEq, Repr

/-- A minimal POSIX-shell word reader for the quoting used in the built
commands. Outside quotes a backslash escapes the next character; inside
single quotes everything but the closing quote is literal. Returns the
characters the word denotes, or `none` for an unterminated quote or
trailing backslash. Word-splitting is not modelled; the argument under
study is a single word. -/
def sqParse : SQMode → List Char → Option (List Char)
  | .outside, [] => some []
  | .inside, [] => none
  | .escaped, [] => none
  | .inside, c :: r =>
    if c = '\'' then sqParse .outside r else (sqParse .inside r).map (c :: ·)
  | .escaped, c :: r => (sqParse .outside r).map (c :: ·)
  | .outside, c :: r =>
    if c = '\'' then sqParse .inside r
    else if c = '\\' then sqParse .escaped r
    else (sqParse .outside r).map (c :: ·)

/-- JavaScript `String.prototype.trim` (whitespace set modelled by
`Char.isWhitespace`): drop leading and trailing whitespace. -/
def jsTrim (s : String) : String :=
  String.mk (((s.data.dropWhile Char.isWhitespace).reverse.dropWhile
    Char.isWhitespace).reverse)

/-- What `PasswordForm.handleSubmit` (lines 105-123) does with the typed
credential before anything else: either it is rejected locally with a
validation message, or `verifyPassword` is reached, whose only side effect
is spawning the verification shell command. -/
inductive SubmitAction where
  | rejectedLocally (msg : String)
  | verifyInvoked (command : String)
deriving DecidableEq, Repr

/-- The submit path of `PasswordForm.handleSubmit`:
`if (!password.trim()) { setError("Please enter your password"); return; }`
and otherwise `verifyPassword(password)`, which runs the verification
command built from the escaped credential. The empty string is the only
falsy string, so the guard fires exactly when the trimmed credential is
empty. -/
def handleSubmitAction (password : String) : SubmitAction :=
  if jsTrim password = "" then .rejectedLocally "Please enter your password"
  else .verifyInvoked (buildVerifyCommand (escapeSingleQuote password))

/-!
Trace semantics of `runWithConcurrencyLimit`

`runWithConcurrencyLimit(items, limit, fn)` (lines 42-71) runs on the
single-threaded JavaScript event loop. The loop admits tasks in index
order; each admitted task's promise is started eagerly. When
`limit <= items.length` (the gate, line 58), every admitted task's
companion promise is pushed on `executing` and removes itself on
settlement; after pushing, if `executing.length >= limit` the loop awaits
`Promise.race(executing)` — it resumes after the first settlement among
them. A companion promise of a task whose promise rejected never removes
itself, so a later race over it rejects, and `Promise.all(results)` rejects
if any task rejected.

The model below is a small-step machine driven by an explicit schedule of
events: `start` (the loop admits the next task, and the task body runs up
to its first suspension) and `finish i c` (the awaited external operation
of in-flight task `i` completes with payload `c`, and the rest of the task
body runs). The nondeterminism of the schedule is exactly the
nondeterminism of external completion order.
-/

/-- A task as the runner sees it, generic in the shared mutable state `σ`
the task closures capture, the completion payload `C` of the awaited
external operation, the task's resolution type `R` and rejection type `E`.
`onStart` is the synchronous part of the task body up to its first `await`;
it returns `none` when the task suspends on the external operation (goes in
flight) and `some v` when the task settles without suspending. `onFinish`
is the rest of the body once the external operation completes. -/
structure TaskSem (σ C R E : Type) where
  onStart : σ → Nat → σ × Option (Except E R)
  onFinish : σ → Nat → C → σ × Except E R

/-- Where the runner's main loop stands: `ready` — between iterations (or,
once all items are admitted, at the final `Promise.all`); `waiting` —
suspended on `Promise.race(executing)`; `rejected` — the `await` of a race
threw, so the promise returned by the runner is rejected. -/
inductive MainPC where
  | ready : MainPC
  | waiting : MainPC
  | rejected : MainPC
deriving DecidableEq, Repr

/-- Runner state: `started` counts admitted tasks (the loop index),
`inflight` lists tasks suspended on their external operation in admission
order, `settled` records settlements in the order they happened, `rejEPs`
counts companion promises in `executing` that rejected (they never splice
themselves out), `shared` is the task-closure state. -/
structure RState (σ R E : Type) where
  pc : MainPC
  started : Nat
  inflight : List Nat
  settled : List (Nat × Except E R)
  rejEPs : Nat
  shared : σ

/-- Did this settlement reject? -/
def exIsErr {E R : Type} : Except E R → Bool
  | .ok _ => false
  | .error _ => true

/-- A schedule event: the loop admits the next task, or in-flight task `i`
has its external operation complete with payload `c`. -/
inductive Event (C : Type) where
  | start : Event C
  | finish (i : Nat) (c : C) : Event C

/-- One loop iteration (lines 50-68): only possible with the loop `ready`
and items remaining. The task body's synchronous prefix runs. If it
suspends, the task joins `inflight`. Under the gate `limit <= items.length`
the companion promise is pushed, and if `executing.length >= limit` the
loop awaits `Promise.race(executing)`: with a rejected companion in
`executing` the race rejects at once; if the task settled synchronously the
race resolves at once through it (or rejects, if it rejected); otherwise
the loop suspends (`waiting`). -/
def stepStart {σ C R E : Type} (ts : TaskSem σ C R E) (n : Nat) (limit : JNum)
    (st : RState σ R E) : Option (RState σ R E) :=
  match st.pc with
  | .ready =>
    if st.started < n then
      match ts.onStart st.shared st.started with
      | (s2, none) =>
        let infl := st.inflight ++ [st.started]
        let pc2 :=
          if limit.leNat n && limit.leNat (infl.length + st.rejEPs) then
            (if st.rejEPs = 0 then MainPC.waiting else MainPC.rejected)
          else MainPC.ready
        some ⟨pc2, st.started + 1, infl, st.settled, st.rejEPs, s2⟩
      | (s2, some v) =>
        let pc2 :=
          if limit.leNat n && limit.leNat (st.inflight.length + 1 + st.rejEPs) then
            (if st.rejEPs = 0 && !(exIsErr v) then MainPC.ready else MainPC.rejected)
          else MainPC.ready
        some ⟨pc2, st.started + 1, st.inflight,
              st.settled ++ [(st.started, v)],
              st.rejEPs + (if exIsErr v then 1 else 0), s2⟩
    else none
  | _ => none

/-- Completion of the external operation of in-flight task `i`: the rest of
the task body runs and the task settles. If the loop was suspended on a
race, every in-flight companion is in that race, so the race resolves (or
rejects, if this task rejected: its companion promise rejects too). -/
def stepFinish {σ C R E : Type} (ts : TaskSem σ C R E) (st : RState σ R E)
    (i : Nat) (c : C) : Option (RState σ R E) :=
  if i ∈ st.inflight then
    match ts.onFinish st.shared i c with
    | (s2, v) =>
      let pc2 :=
        if st.pc = MainPC.waiting then
          (if exIsErr v then MainPC.rejected else MainPC.ready)
        else st.pc
      some ⟨pc2, st.started, st.inflight.erase i,
            st.settled ++ [(i, v)],
            st.rejEPs + (if exIsErr v then 1 else 0), s2⟩
  else none

/-- One scheduled event. -/
def step {σ C R E : Type} (ts : TaskSem σ C R E) (n : Nat) (limit : JNum)
    (st : RState σ R E) : Event C → Option (RState σ R E)
  | .start => stepStart ts n limit st
  | .finish i c => stepFinish ts st i c

/-- Run a schedule from a given state; `none` when some event is not
enabled (an invalid schedule). -/
def runFrom {σ C R E : Type} (ts : TaskSem σ C R E) (n : Nat) (limit : JNum)
    (st : RState σ R E) : List (Event C) → Option (RState σ R E)
  | [] => some st
  | e :: evs =>
    match step ts n limit st e with
    | none => none
    | some st2 => runFrom ts n limit st2 evs

/-- Initial state of a run. -/
def initState {σ R E : Type} (s0 : σ) : RState σ R E := ⟨.ready, 0, [], [], 0, s0⟩

/-- Run a schedule from the initial state. -/
def runSched {σ C R E : Type} (ts : TaskSem σ C R E) (n : Nat) (limit : JNum)
    (s0 : σ) (evs : List (Event C)) : Option (RState σ R E) :=
  runFrom ts n limit (initState s0) evs

/-- State of the promise returned by `runWithConcurrencyLimit`. -/
inductive RunnerFinal (R : Type) where
  | resolved (rs : List R) : RunnerFinal R
  | rejectedF : RunnerFinal R
  | pending : RunnerFinal R

/-- Per-index settlement lookup, in input order. -/
def collected {σ R E : Type} (n : Nat) (st : RState σ R E) :
    List (Option (Except E R)) :=
  (List.range n).map (fun i => List.lookup i st.settled)

/-- The resolution values in input order (skipping rejections and
still-pending slots). -/
def okValues {σ R E : Type} (n : Nat) (st : RState σ R E) : List R :=
  (collected n st).filterMap (fun o => o.bind (fun v => v.toOption))

/-- The state of the runner's promise: rejected once a race threw;
otherwise, after the loop has admitted everything, `Promise.all(results)`
rejects as soon as some task rejected, resolves with the per-index values
in input order once every task settled, and is pending until then. -/
def runnerFinal {σ R E : Type} (n : Nat) (st : RState σ R E) : RunnerFinal R :=
  match st.pc with
  | .rejected => .rejectedF
  | .waiting => .pending
  | .ready =>
    if st.started = n then
      if st.settled.any (fun p => exIsErr p.2) then .rejectedF
      else if (collected n st).all Option.isSome then .resolved (okValues n st)
      else .pending
    else .pending

/-!
The `deleteSnapshots` per-target task and aggregation

`deleteSnapshots` (lines 328-533) runs one task per selected snapshot
through `runWithConcurrencyLimit`. Each task closes over `results`,
`completedCount` and `authFailed`. The task body (lines 384-473): if
`authFailed` is already set, push a skipped outcome and return (no
suspension, no privileged command); otherwise invoke the privileged
deletion command and await it; on success push a success outcome and
increment `completedCount`; on failure derive an error message from the
exec error, set `authFailed` when stderr carries a sudo rejection marker,
push a failure outcome and increment `completedCount`. The whole body's
failure handling is inside the task, so the task's promise always resolves.
-/

/-- One element of the `results` array (the `DeletionResult` interface,
lines 35-39). -/
structure DeletionResult where
  snapshot : String
  success : Bool
  error : Option String
deriving DecidableEq, Repr

/-- The shared state the per-target task closures mutate:
`results` (line 360), `completedCount` and `authFailed` (lines 380-381). -/
structure OrchState where
  results : List DeletionResult
  completedCount : Nat
  authFailed : Bool
deriving DecidableEq, Repr

/-- Initial shared state of a `deleteSnapshots` run. -/
def initOrch : OrchState := ⟨[], 0, false⟩

/-- The skip message pushed for targets short-circuited after an
authentication failure (line 390). -/
def skipMessage : String := "Skipped due to previous authentication failure"

/-- The outcome pushed for a skipped target (lines 387-392). -/
def skipResult (targets : List String) (i : Nat) : DeletionResult :=
  ⟨targets.getD i "", false, some skipMessage⟩

/-- The sudo rejection signature test (lines 90 and 435):
`s.includes("Sorry") || s.includes("incorrect password")`. -/
def authSig (s : String) : Bool := jsIncludes s "Sorry" || jsIncludes s "incorrect password"

/-- An exec error as the catch block sees it (an `Error` with optional
captured `stderr`/`stdout`). -/
structure ExecFailure where
  message : String
  stderr : Option String
  stdout : Option String
deriving DecidableEq, Repr

/-- Completion payload of one privileged deletion command: success, or a
thrown value — `failure (some f)` is an `Error` carrying `f`,
`failure none` a thrown non-`Error` (the catch block then keeps
"Unknown error" and inspects nothing). -/
inductive ExecOutcome where
  | success : ExecOutcome
  | failure (err : Option ExecFailure) : ExecOutcome
deriving DecidableEq, Repr

/-- The error message the catch block derives (lines 419-448):
start from `error.message`; an existing non-empty `stderr` replaces it; an
existing non-empty `stdout` replaces it only when it still reads exactly
"Unknown error". (JavaScript truthiness: the empty string fails the
`if (execError.stderr)` / `if (execError.stdout)` tests.) -/
def failureMessage (f : ExecFailure) : String :=
  let m1 := f.message
  let m2 := match f.stderr with
            | some s => if s = "" then m1 else s
            | none => m1
  match f.stdout with
  | some s2 => if s2 = "" then m2 else (if m2 = "Unknown error" then s2 else m2)
  | none => m2

/-- Is the failure classified as an authentication failure (lines 434-438)?
Only a non-empty captured `stderr` is inspected. -/
def failureAuth (f : ExecFailure) : Bool :=
  match f.stderr with
  | some s => if s = "" then false else authSig s
  | none => false

/-- The outcome value a completed (non-skipped) task pushes for target `i`
(lines 410 and 453-457). -/
def execOutcomeResult (targets : List String) (i : Nat) (c : ExecOutcome) :
    DeletionResult :=
  match c with
  | .success => ⟨targets.getD i "", true, none⟩
  | .failure none => ⟨targets.getD i "", false, some "Unknown error"⟩
  | .failure (some f) => ⟨targets.getD i "", false, some (failureMessage f)⟩

/-- Whether this completion sets the shared `authFailed` flag (line 437). -/
def execOutcomeAuth (c : ExecOutcome) : Bool :=
  match c with
  | .success => false
  | .failure none => false
  | .failure (some f) => failureAuth f

/-- The per-target task of `deleteSnapshots` as a `TaskSem`: the shared
state is `OrchState`, the awaited external operation is the privileged
deletion command with payload `ExecOutcome`, the task resolves with
`undefined` (`Unit`) and can never reject (`Empty`) because its body
catches everything. -/
def deletionTaskSem (targets : List String) : TaskSem OrchState ExecOutcome Unit Empty :=
  { onStart := fun s i =>
      if s.authFailed then
        ({ s with results := s.results ++ [skipResult targets i] },
         some (Except.ok ()))
      else (s, none)
    onFinish := fun s i c =>
      ({ results := s.results ++ [execOutcomeResult targets i c],
         completedCount := s.completedCount + 1,
         authFailed := s.authFailed || execOutcomeAuth c },
       Except.ok ()) }

/-- Number of settlements of non-skipped tasks in a schedule — exactly the
events at which the source increments `completedCount` (lines 413, 470). -/
def countFinishEvents : List (Event ExecOutcome) → Nat
  | [] => 0
  | Event.start :: evs => countFinishEvents evs
  | Event.finish _ _ :: evs => countFinishEvents evs + 1

/-- `successful` of the aggregation (line 478). -/
def successCount (rs : List DeletionResult) : Nat :=
  (rs.filter (fun r => r.success)).length

/-- `failed` of the aggregation (line 479). -/
def failureCount (rs : List DeletionResult) : Nat :=
  (rs.filter (fun r => !r.success)).length

/-- Classification of a finished run's toast (lines 481-500). -/
inductive RunClass where
  | noOp : RunClass
  | allSucceeded : RunClass
  | allFailed : RunClass
  | partialResult : RunClass
deriving DecidableEq, Repr

/-- The classification chain over the `results` array (lines 481-500):
all-success when `failed === 0`, all-failure when `successful === 0`,
otherwise partial. -/
def classifyResults (rs : List DeletionResult) : RunClass :=
  if failureCount rs = 0 then .allSucceeded
  else if successCount rs = 0 then .allFailed
  else .partialResult

/-- The summary of a whole `deleteSnapshots` call: with nothing selected
the guard at lines 329-336 returns before any task runs (the no-op case);
otherwise the outcome list is classified. -/
def deleteSummary (selected : List String) (rs : List DeletionResult) : RunClass :=
  if selected.isEmpty then .noOp else classifyResults rs

/-- A task function whose external completion payload decides whether the
task's promise resolves (`true`) or rejects (`false`) — the shape `fn`
takes when an individual failure is not caught inside the task body. -/
def mixedSem : TaskSem Unit Bool Unit String :=
  { onStart := fun s _ => (s, none)
    onFinish := fun s _ c =>
      (s, if c then Except.ok () else Except.error "task exploded") }

/-!
Invariants of the runner
-/

/-- Structural invariant of every reachable runner state: the in-flight
indices together with the settled indices are exactly the admitted indices
`0, …, started-1` (each task is admitted once and settles at most once);
no more tasks are admitted than there are items; a suspended race always
has an in-flight task to resolve it; rejected companion promises come from
settlements. -/
def InvS {σ R E : Type} (n : Nat) (st : RState σ R E) : Prop :=
  (st.inflight ++ st.settled.map Prod.fst).Perm (List.range st.started)
  ∧ st.started ≤ n
  ∧ (st.pc = MainPC.waiting → st.inflight ≠ [])
  ∧ st.rejEPs ≤ st.settled.length

/-- Size invariant for an integer limit `l`: with the loop between
iterations the `executing` array is strictly below the limit (else the loop
would be suspended on a race), and it never exceeds the limit. -/
def InvB {σ R E : Type} (l : Int) (st : RState σ R E) : Prop :=
  (st.pc = MainPC.ready → (st.inflight.length + st.rejEPs : Int) < l)
  ∧ ((st.inflight.length + st.rejEPs : Int) ≤ l)

/-- For tasks that cannot reject, the runner never rejects: no race ever
throws and no companion promise ever rejects. -/
def InvE {σ R : Type} (st : RState σ R Empty) : Prop :=
  st.pc ≠ MainPC.rejected ∧ st.rejEPs = 0

/-- The `results` array and the settlement record advance together: one
outcome is pushed per settlement, carrying that settlement's target, and
`completedCount` never exceeds the number of settled tasks. -/
def InvD (targets : List String) (st : RState OrchState Unit Empty) : Prop :=
  st.shared.results.map DeletionResult.snapshot
    = st.settled.map (fun p => targets.getD p.1 "")
  ∧ st.shared.results.length = st.settled.length
  ∧ st.shared.completedCount ≤ st.settled.length

/-- Transport a step-preserved predicate along a whole schedule. -/
theorem runFrom_inv {σ C R E : Type} {ts : TaskSem σ C R E} {n : Nat} {limit : JNum}
    {P : RState σ R E → Prop}
    (hstep : ∀ st ev st', P st → step ts n limit st ev = some st' → P st') :
    ∀ (evs : List (Event C)) (st st' : RState σ R E),
      P st → runFrom ts n limit st evs = some st' → P st' := by
  intro evs
  induction evs with
  | nil =>
    intro st st' hP h
    rw [runFrom] at h
    cases h
    exact hP
  | cons e evs ih =>
    intro st st' hP h
    rw [runFrom] at h
    cases h2 : step ts n limit st e with
    | none => rw [h2] at h; cases h
    | some st2 => rw [h2] at h; exact ih st2 st' (hstep st e st2 hP h2) h


theorem invS_init {σ R E : Type} (n : Nat) (s0 : σ) :
    InvS n (initState s0 : RState σ R E) := by
  refine ⟨by simp [initState], by simp [initState], ?_, by simp [initState]⟩
  intro h
  simp [initState] at h

/-- Moving a freshly appended element past a second list is a permutation. -/
theorem perm_snoc_mid {α : Type} (A B : List α) (a : α) :
    ((A ++ [a]) ++ B).Perm ((A ++ B) ++ [a]) := by
  rw [List.append_assoc, List.append_assoc]
  exact List.Perm.append_left A List.perm_append_comm

theorem invS_step {σ C R E : Type} {ts : TaskSem σ C R E} {n : Nat} {limit : JNum} :
    ∀ (st : RState σ R E) (ev : Event C) (st' : RState σ R E),
      InvS n st → step ts n limit st ev = some st' → InvS n st' := by
  intro st ev st' hInv hstep
  obtain ⟨hperm, hsn, hwait, hrej⟩ := hInv
  cases ev with
  | start =>
    rw [step] at hstep
    rw [stepStart] at hstep
    cases hpc : st.pc <;> rw [hpc] at hstep
    case waiting => cases hstep
    case rejected => cases hstep
    case ready =>
      by_cases hlt : st.started < n
      · rw [if_pos hlt] at hstep
        rcases hA : ts.onStart st.shared st.started with ⟨s2, o⟩
        rw [hA] at hstep
        cases o with
        | none =>
          cases hstep
          refine ⟨?_, ?_, ?_, ?_⟩
          · show ((st.inflight ++ [st.started]) ++ st.settled.map Prod.fst).Perm
              (List.range (st.started + 1))
            rw [List.range_succ]
            exact (perm_snoc_mid _ _ _).trans (hperm.append_right [st.started])
          · show st.started + 1 ≤ n
            omega
          · intro _
            show st.inflight ++ [st.started] ≠ []
            simp
          · show st.rejEPs ≤ st.settled.length
            exact hrej
        | some v =>
          cases hstep
          refine ⟨?_, ?_, ?_, ?_⟩
          · show (st.inflight ++ (st.settled ++ [(st.started, v)]).map Prod.fst).Perm
              (List.range (st.started + 1))
            rw [List.range_succ, List.map_append, ← List.append_assoc]
            exact hperm.append_right [st.started]
          · show st.started + 1 ≤ n
            omega
          · intro hw
            exfalso
            have hne : (if (limit.leNat n
                  && limit.leNat (st.inflight.length + 1 + st.rejEPs)) = true
                then (if (decide (st.rejEPs = 0) && !exIsErr v) = true
                      then MainPC.ready else MainPC.rejected)
                else MainPC.ready) ≠ MainPC.waiting := by
              split
              · split <;> simp
              · simp
            exact absurd hw hne
          · show st.rejEPs + (if exIsErr v = true then 1 else 0)
              ≤ (st.settled ++ [(st.started, v)]).length
            rw [List.length_append]
            split <;> simp <;> omega
      · rw [if_neg hlt] at hstep
        cases hstep
  | finish i c =>
    rw [step] at hstep
    rw [stepFinish] at hstep
    by_cases hmem : i ∈ st.inflight
    · rw [if_pos hmem] at hstep
      rcases hB : ts.onFinish st.shared i c with ⟨s2, v⟩
      rw [hB] at hstep
      cases hstep
      refine ⟨?_, hsn, ?_, ?_⟩
      · show (st.inflight.erase i ++ (st.settled ++ [(i, v)]).map Prod.fst).Perm
          (List.range st.started)
        rw [List.map_append, ← List.append_assoc]
        refine (List.perm_append_singleton i _).trans (List.Perm.trans ?_ hperm)
        show (i :: (st.inflight.erase i ++ st.settled.map Prod.fst)).Perm
          (st.inflight ++ st.settled.map Prod.fst)
        exact ((List.perm_cons_erase hmem).append_right _).symm
      · intro hw
        exfalso
        have hne : (if st.pc = MainPC.waiting then
              (if exIsErr v then MainPC.rejected else MainPC.ready)
            else st.pc) ≠ MainPC.waiting := by
          split
          · split <;> simp
          · assumption
        exact absurd hw hne
      · show st.rejEPs + (if exIsErr v = true then 1 else 0)
          ≤ (st.settled ++ [(i, v)]).length
        rw [List.length_append]
        split <;> simp <;> omega
    · rw [if_neg hmem] at hstep
      cases hstep

/-- Every reachable state satisfies the structural invariant. -/
theorem invS_run {σ C R E : Type} {ts : TaskSem σ C R E} {n : Nat} {limit : JNum}
    {s0 : σ} {evs : List (Event C)} {st : RState σ R E}
    (h : runSched ts n limit s0 evs = some st) : InvS n st :=
  runFrom_inv (fun st ev st' => invS_step st ev st') evs _ st (invS_init n s0) h

theorem leNat_num_false {l : Int} {k : Nat}
    (h : JNum.leNat (JNum.num l) k = false) : (k : Int) < l := by
  simp [JNum.leNat] at h
  omega

theorem leNat_num_true {l : Int} {k : Nat}
    (h : JNum.leNat (JNum.num l) k = true) : l ≤ (k : Int) := by
  simpa [JNum.leNat] using h

/-- In-flight and lingering rejected companions never outnumber the
admitted tasks. -/
theorem invS_execLen_le_started {σ R E : Type} {n : Nat} {st : RState σ R E}
    (hS : InvS n st) : st.inflight.length + st.rejEPs ≤ st.started := by
  obtain ⟨hperm, _, _, hrej⟩ := hS
  have hlen := hperm.length_eq
  simp [List.length_append, List.length_range] at hlen
  omega


theorem invB_init {σ R E : Type} (l : Int) (hl : 1 ≤ l) (s0 : σ) :
    InvB l (initState s0 : RState σ R E) := by
  constructor
  · intro _
    show ((([] : List Nat).length + 0 : Nat) : Int) < l
    simp
    omega
  · show ((([] : List Nat).length + 0 : Nat) : Int) ≤ l
    simp
    omega

theorem invB_step {σ C R E : Type} {ts : TaskSem σ C R E} {n : Nat} {l : Int}
    (st : RState σ R E) (ev : Event C) (st' : RState σ R E)
    (hS : InvS n st) (hB : InvB l st)
    (hstep : step ts n (JNum.num l) st ev = some st') : InvB l st' := by
  obtain ⟨hB1, hB2⟩ := hB
  have hlen := invS_execLen_le_started hS
  have hsn : st.started ≤ n := hS.2.1
  cases ev with
  | start =>
    rw [step] at hstep
    rw [stepStart] at hstep
    cases hpc : st.pc <;> rw [hpc] at hstep
    case waiting => cases hstep
    case rejected => cases hstep
    case ready =>
      have hel : (st.inflight.length + st.rejEPs : Int) < l := hB1 hpc
      by_cases hlt : st.started < n
      · rw [if_pos hlt] at hstep
        rcases hA : ts.onStart st.shared st.started with ⟨s2, o⟩
        rw [hA] at hstep
        cases o with
        | none =>
          cases hstep
          constructor
          · intro hw
            show (((st.inflight ++ [st.started]).length + st.rejEPs : Nat) : Int) < l
            by_cases hc : (JNum.leNat (JNum.num l) n
                && JNum.leNat (JNum.num l)
                  ((st.inflight ++ [st.started]).length + st.rejEPs)) = true
            · exfalso
              revert hw
              show (if _ = true then (if st.rejEPs = 0 then MainPC.waiting else MainPC.rejected)
                else MainPC.ready) = MainPC.ready → False
              rw [if_pos hc]
              split <;> simp
            · rw [Bool.and_eq_true, not_and_or] at hc
              simp only [List.length_append, List.length_cons, List.length_nil]
              rcases hc with hc | hc
              · rw [Bool.not_eq_true] at hc
                have hn := leNat_num_false hc
                omega
              · rw [Bool.not_eq_true] at hc
                have h2 := leNat_num_false hc
                simp only [List.length_append, List.length_cons, List.length_nil] at h2
                omega
          · show (((st.inflight ++ [st.started]).length + st.rejEPs : Nat) : Int) ≤ l
            simp only [List.length_append, List.length_cons, List.length_nil]
            omega
        | some v =>
          cases hstep
          constructor
          · intro hw
            show ((st.inflight.length + (st.rejEPs + if exIsErr v = true then 1 else 0) : Nat) : Int) < l
            by_cases hc : (JNum.leNat (JNum.num l) n
                && JNum.leNat (JNum.num l) (st.inflight.length + 1 + st.rejEPs)) = true
            · have hok : (decide (st.rejEPs = 0) && !exIsErr v) = true := by
                by_contra hok
                rw [Bool.not_eq_true] at hok
                revert hw
                show (if _ = true then (if (decide (st.rejEPs = 0) && !exIsErr v) = true
                      then MainPC.ready else MainPC.rejected)
                    else MainPC.ready) = MainPC.ready → False
                rw [if_pos hc, hok]
                simp
              have hex : exIsErr v = false := by
                rcases (Bool.and_eq_true _ _).mp hok with ⟨_, h2⟩
                cases hexx : exIsErr v
                · rfl
                · rw [hexx] at h2
                  simp at h2
              simp only [hex, Bool.false_eq_true, if_false]
              omega
            · rw [Bool.and_eq_true, not_and_or] at hc
              rcases hc with hc | hc
              · rw [Bool.not_eq_true] at hc
                have hn := leNat_num_false hc
                split <;> omega
              · rw [Bool.not_eq_true] at hc
                have h2 := leNat_num_false hc
                split <;> omega
          · show ((st.inflight.length + (st.rejEPs + if exIsErr v = true then 1 else 0) : Nat) : Int) ≤ l
            split <;> omega
      · rw [if_neg hlt] at hstep
        cases hstep
  | finish i c =>
    rw [step] at hstep
    rw [stepFinish] at hstep
    by_cases hmem : i ∈ st.inflight
    · rw [if_pos hmem] at hstep
      rcases hF : ts.onFinish st.shared i c with ⟨s2, v⟩
      rw [hF] at hstep
      cases hstep
      have hone : 1 ≤ st.inflight.length := List.length_pos.mpr (by
        intro hcon
        rw [hcon] at hmem
        cases hmem)
      have herase : (st.inflight.erase i).length = st.inflight.length - 1 :=
        List.length_erase_of_mem hmem
      constructor
      · intro hw
        show (((st.inflight.erase i).length + (st.rejEPs + if exIsErr v = true then 1 else 0) : Nat) : Int) < l
        rw [herase]
        by_cases hpw : st.pc = MainPC.waiting
        · revert hw
          show (if st.pc = MainPC.waiting then _ else st.pc) = MainPC.ready → _
          rw [if_pos hpw]
          by_cases hex : exIsErr v = true
          · rw [if_pos hex]
            intro hw2
            cases hw2
          · rw [if_neg hex]
            rw [Bool.not_eq_true] at hex
            intro _
            simp only [hex, Bool.false_eq_true, if_false]
            omega
        · revert hw
          show (if st.pc = MainPC.waiting then _ else st.pc) = MainPC.ready → _
          rw [if_neg hpw]
          intro hw2
          have hel := hB1 hw2
          split <;> omega
      · show (((st.inflight.erase i).length + (st.rejEPs + if exIsErr v = true then 1 else 0) : Nat) : Int) ≤ l
        rw [herase]
        split <;> omega
    · rw [if_neg hmem] at hstep
      cases hstep

/-- Reachable states keep both invariants for an integer limit. -/
theorem invSB_run {σ C R E : Type} {ts : TaskSem σ C R E} {n : Nat} {l : Int}
    (hl : 1 ≤ l) {s0 : σ} {evs : List (Event C)} {st : RState σ R E}
    (h : runSched ts n (JNum.num l) s0 evs = some st) : InvS n st ∧ InvB l st := by
  have hstep : ∀ (st2 : RState σ R E) (ev : Event C) (st3 : RState σ R E),
      (InvS n st2 ∧ InvB l st2) → step ts n (JNum.num l) st2 ev = some st3 →
      InvS n st3 ∧ InvB l st3 := by
    intro st2 ev st3 hP hstep2
    exact ⟨invS_step st2 ev st3 hP.1 hstep2,
      invB_step st2 ev st3 hP.1 hP.2 hstep2⟩
  exact @runFrom_inv σ C R E ts n (JNum.num l) (fun st => InvS n st ∧ InvB l st)
    hstep evs _ st ⟨invS_init n s0, invB_init l hl s0⟩ h

/-- A settlement of a task that cannot reject is never an error. -/
theorem exIsErr_empty {R : Type} (v : Except Empty R) : exIsErr v = false := by
  cases v with
  | ok r => rfl
  | error e => exact e.elim


theorem invE_init {σ R : Type} (s0 : σ) : InvE (initState s0 : RState σ R Empty) := by
  constructor
  · intro h
    cases h
  · rfl

theorem invE_step {σ C R : Type} {ts : TaskSem σ C R Empty} {n : Nat} {limit : JNum}
    (st : RState σ R Empty) (ev : Event C) (st' : RState σ R Empty)
    (hE : InvE st) (hstep : step ts n limit st ev = some st') : InvE st' := by
  obtain ⟨hE1, hE2⟩ := hE
  cases ev with
  | start =>
    rw [step] at hstep
    rw [stepStart] at hstep
    cases hpc : st.pc <;> rw [hpc] at hstep
    case waiting => cases hstep
    case rejected => cases hstep
    case ready =>
      by_cases hlt : st.started < n
      · rw [if_pos hlt] at hstep
        rcases hA : ts.onStart st.shared st.started with ⟨s2, o⟩
        rw [hA] at hstep
        cases o with
        | none =>
          cases hstep
          constructor
          · show (if _ = true then (if st.rejEPs = 0 then MainPC.waiting else MainPC.rejected)
              else MainPC.ready) ≠ MainPC.rejected
            rw [if_pos hE2]
            split <;> simp
          · exact hE2
        | some v =>
          cases hstep
          constructor
          · show (if _ = true then (if (decide (st.rejEPs = 0) && !exIsErr v) = true
                then MainPC.ready else MainPC.rejected)
              else MainPC.ready) ≠ MainPC.rejected
            have hok : (decide (st.rejEPs = 0) && !exIsErr v) = true := by
              rw [hE2, exIsErr_empty v]
              rfl
            rw [hok]
            split <;> simp
          · show st.rejEPs + (if exIsErr v = true then 1 else 0) = 0
            rw [exIsErr_empty v, hE2]
            rfl
      · rw [if_neg hlt] at hstep
        cases hstep
  | finish i c =>
    rw [step] at hstep
    rw [stepFinish] at hstep
    by_cases hmem : i ∈ st.inflight
    · rw [if_pos hmem] at hstep
      rcases hF : ts.onFinish st.shared i c with ⟨s2, v⟩
      rw [hF] at hstep
      cases hstep
      constructor
      · show (if st.pc = MainPC.waiting then
            (if exIsErr v then MainPC.rejected else MainPC.ready)
          else st.pc) ≠ MainPC.rejected
        rw [exIsErr_empty v]
        split
        · simp
        · exact hE1
      · show st.rejEPs + (if exIsErr v = true then 1 else 0) = 0
        rw [exIsErr_empty v, hE2]
        rfl
    · rw [if_neg hmem] at hstep
      cases hstep

/-- Reachable states of a run whose tasks cannot reject. -/
theorem invE_run {σ C R : Type} {ts : TaskSem σ C R Empty} {n : Nat} {limit : JNum}
    {s0 : σ} {evs : List (Event C)} {st : RState σ R Empty}
    (h : runSched ts n limit s0 evs = some st) : InvE st :=
  runFrom_inv (fun st ev st' => invE_step st ev st') evs _ st (invE_init s0) h

/-- When the gate `limit <= items.length` is false (`NaN`, or an integer
limit strictly above the item count), the loop never touches `executing`
and never suspends: the main loop is always `ready`. -/
theorem invGateOff_step {σ C R E : Type} {ts : TaskSem σ C R E} {n : Nat} {limit : JNum}
    (hg : JNum.leNat limit n = false)
    (st : RState σ R E) (ev : Event C) (st' : RState σ R E)
    (hP : st.pc = MainPC.ready) (hstep : step ts n limit st ev = some st') :
    st'.pc = MainPC.ready := by
  cases ev with
  | start =>
    rw [step] at hstep
    rw [stepStart] at hstep
    rw [hP] at hstep
    by_cases hlt : st.started < n
    · rw [if_pos hlt] at hstep
      rcases hA : ts.onStart st.shared st.started with ⟨s2, o⟩
      rw [hA] at hstep
      cases o with
      | none =>
        cases hstep
        show (if (JNum.leNat limit n && _) = true then _ else MainPC.ready) = MainPC.ready
        rw [hg]
        rfl
      | some v =>
        cases hstep
        show (if (JNum.leNat limit n && _) = true then _ else MainPC.ready) = MainPC.ready
        rw [hg]
        rfl
    · rw [if_neg hlt] at hstep
      cases hstep
  | finish i c =>
    rw [step] at hstep
    rw [stepFinish] at hstep
    by_cases hmem : i ∈ st.inflight
    · rw [if_pos hmem] at hstep
      rcases hF : ts.onFinish st.shared i c with ⟨s2, v⟩
      rw [hF] at hstep
      cases hstep
      show (if st.pc = MainPC.waiting then _ else st.pc) = MainPC.ready
      rw [hP]
      simp
    · rw [if_neg hmem] at hstep
      cases hstep

/-- Reachability form of the gate-off invariant. -/
theorem invGateOff_run {σ C R E : Type} {ts : TaskSem σ C R E} {n : Nat} {limit : JNum}
    (hg : JNum.leNat limit n = false)
    {s0 : σ} {evs : List (Event C)} {st : RState σ R E}
    (h : runSched ts n limit s0 evs = some st) : st.pc = MainPC.ready :=
  runFrom_inv (fun st ev st' => invGateOff_step hg st ev st') evs _ st rfl h

/-- A key present in an association list is found by `lookup`. -/
theorem lookup_isSome_of_mem_keys {β : Type} {l : List (Nat × β)} {i : Nat}
    (h : i ∈ l.map Prod.fst) : (List.lookup i l).isSome = true := by
  induction l with
  | nil => cases h
  | cons p t ih =>
    rcases p with ⟨j, v⟩
    by_cases hij : i = j
    · subst hij
      simp [List.lookup]
    · have hne : (i == j) = false := beq_eq_false_iff_ne.mpr hij
      rw [List.lookup, hne]
      refine ih ?_
      rcases List.mem_map.mp h with ⟨a, ha, hfa⟩
      cases ha with
      | head => exact absurd hfa.symm (by simpa using hij)
      | tail _ hmem => exact List.mem_map.mpr ⟨a, hmem, hfa⟩

/-- What `lookup` finds is a member. -/
theorem mem_of_lookup_eq_some {β : Type} {l : List (Nat × β)} {i : Nat} {v : β}
    (h : List.lookup i l = some v) : (i, v) ∈ l := by
  induction l with
  | nil => cases h
  | cons p t ih =>
    rcases p with ⟨j, w⟩
    rw [List.lookup] at h
    cases hb : (i == j) with
    | true =>
      rw [hb] at h
      have h2 : some w = some v := h
      cases h2
      have hij : i = j := beq_iff_eq.mp hb
      cases hij
      exact List.mem_cons_self _ _
    | false =>
      rw [hb] at h
      exact List.mem_cons_of_mem _ (ih h)

/-- `getD` over `range` rebuilds the list. -/
theorem map_getD_range (l : List String) :
    (List.range l.length).map (fun i => l.getD i "") = l := by
  induction l with
  | nil => rfl
  | cons a t ih =>
    show (List.range (t.length + 1)).map (fun i => (a :: t).getD i "") = a :: t
    rw [List.range_succ_eq_map, List.map_cons, List.map_map]
    rw [List.getD_cons_zero]
    have h2 : (List.range t.length).map ((fun i => (a :: t).getD i "") ∘ Nat.succ)
        = (List.range t.length).map (fun i => t.getD i "") :=
      List.map_congr_left (fun i _ => List.getD_cons_succ)
    rw [h2, ih]

/-- The loop can always admit the next task when it is ready and items
remain. -/
theorem stepStart_isSome {σ C R E : Type} (ts : TaskSem σ C R E) (n : Nat)
    (limit : JNum) (st : RState σ R E)
    (hpc : st.pc = MainPC.ready) (hlt : st.started < n) :
    (stepStart ts n limit st).isSome = true := by
  rw [stepStart, hpc, if_pos hlt]
  rcases hA : ts.onStart st.shared st.started with ⟨s2, o⟩
  cases o <;> rfl

/-- An in-flight task can always be completed. -/
theorem stepFinish_isSome {σ C R E : Type} (ts : TaskSem σ C R E) (st : RState σ R E)
    (i : Nat) (c : C) (hmem : i ∈ st.inflight) :
    (stepFinish ts st i c).isSome = true := by
  rw [stepFinish, if_pos hmem]
  rcases hF : ts.onFinish st.shared i c with ⟨s2, v⟩
  rfl

/-- A fully settled run has every slot filled. -/
theorem collected_all_isSome {σ R E : Type} {n : Nat} {st : RState σ R E}
    (hkeys : ∀ i, i < n → i ∈ st.settled.map Prod.fst) :
    (collected n st).all Option.isSome = true := by
  rw [List.all_eq_true]
  intro o ho
  rcases List.mem_map.mp ho with ⟨i, hi, rfl⟩
  exact lookup_isSome_of_mem_keys (hkeys i (List.mem_range.mp hi))

/-- In a list of filled, non-rejecting slots, the slots are the extracted
values in order. -/
theorem all_some_ok_eq_map {R : Type} (l : List (Option (Except Empty R)))
    (hall : ∀ o ∈ l, Option.isSome o = true) :
    l = (l.filterMap (fun o => o.bind (fun v => v.toOption))).map
      (fun r => some (Except.ok r)) := by
  induction l with
  | nil => rfl
  | cons o t ih =>
    have ho := hall o (List.mem_cons_self o t)
    rcases o with _ | v
    · cases ho
    · rcases v with e | r
      · exact e.elim
      · have ht := ih (fun o ho2 => hall o (List.mem_cons_of_mem _ ho2))
        rw [List.filterMap_cons]
        show some (Except.ok r) :: t
          = (r :: t.filterMap (fun o => o.bind (fun v => v.toOption))).map
            (fun r => some (Except.ok r))
        rw [List.map_cons, ← ht]

/-- Once as many tasks have settled as there are items, nothing is in
flight, the loop has admitted everything, and the settled keys are a
permutation of all indices. -/
theorem invS_complete {σ R E : Type} {n : Nat} {st : RState σ R E}
    (hS : InvS n st) (hdone : st.settled.length = n) :
    st.inflight = [] ∧ st.started = n
      ∧ (st.settled.map Prod.fst).Perm (List.range n) := by
  obtain ⟨hperm, hsn, _, _⟩ := hS
  have hlen := hperm.length_eq
  simp only [List.length_append, List.length_map, List.length_range, hdone] at hlen
  have hinfl : st.inflight = [] := by
    rw [← List.length_eq_zero]
    omega
  have hst : st.started = n := by omega
  refine ⟨hinfl, hst, ?_⟩
  have := hperm
  rw [hinfl, List.nil_append, hst] at this
  exact this

/-- A run of non-rejecting tasks in which every task has settled resolves
with the per-index values, in input order. -/
theorem runnerFinal_resolved {σ C R : Type} {ts : TaskSem σ C R Empty} {n : Nat}
    {limit : JNum} {s0 : σ} {evs : List (Event C)} {st : RState σ R Empty}
    (h : runSched ts n limit s0 evs = some st) (hdone : st.settled.length = n) :
    runnerFinal n st = RunnerFinal.resolved (okValues n st)
      ∧ (okValues n st).length = n
      ∧ (∀ i, i < n → ∃ r, (okValues n st)[i]? = some r
          ∧ List.lookup i st.settled = some (Except.ok r)) := by
  have hS := invS_run h
  have hE := invE_run h
  obtain ⟨hinfl, hst, hkeysperm⟩ := invS_complete hS hdone
  have hpc : st.pc = MainPC.ready := by
    cases hpcc : st.pc
    · rfl
    · exact absurd (hS.2.2.1 hpcc) (by rw [hinfl]; simp)
    · exact absurd hpcc hE.1
  have hkeys : ∀ i, i < n → i ∈ st.settled.map Prod.fst := by
    intro i hi
    exact hkeysperm.mem_iff.mpr (List.mem_range.mpr hi)
  have hall := collected_all_isSome hkeys
  have hallmem : ∀ o ∈ collected n st, Option.isSome o = true :=
    List.all_eq_true.mp hall
  have hanyerr : st.settled.any (fun p => exIsErr p.2) = false := by
    rw [List.any_eq_false]
    intro p _
    rw [exIsErr_empty p.2]
    simp
  have hfin : runnerFinal n st = RunnerFinal.resolved (okValues n st) := by
    rw [runnerFinal, hpc]
    rw [if_pos hst, hanyerr]
    rw [if_neg (by simp), if_pos hall]
  have hshape : collected n st
      = (okValues n st).map (fun r => some (Except.ok r)) := by
    rw [okValues]
    exact all_some_ok_eq_map (collected n st) hallmem
  have hcount : (collected n st).length = n := by
    rw [collected, List.length_map, List.length_range]
  have hoklen : (okValues n st).length = n := by
    rw [hshape, List.length_map] at hcount
    exact hcount
  refine ⟨hfin, hoklen, ?_⟩
  intro i hi
  have hilen : i < (okValues n st).length := by rw [hoklen]; exact hi
  refine ⟨(okValues n st).get ⟨i, hilen⟩, ?_, ?_⟩
  · exact List.getElem?_eq_getElem hilen
  · have h1 : (collected n st)[i]? = some (List.lookup i st.settled) := by
      rw [collected, List.getElem?_map, List.getElem?_range hi]
      rfl
    have h2 : (collected n st)[i]?
        = some (some (Except.ok ((okValues n st).get ⟨i, hilen⟩))) := by
      rw [hshape, List.getElem?_map, List.getElem?_eq_getElem hilen]
      rfl
    rw [h1] at h2
    exact Option.some.inj h2

/-!
Invariants of the `deleteSnapshots` run
-/

/-- The pushed snapshot name of a completed task's outcome is the target it
was started for. -/
theorem execOutcomeResult_snapshot (targets : List String) (i : Nat) (c : ExecOutcome) :
    (execOutcomeResult targets i c).snapshot = targets.getD i "" := by
  cases c with
  | success => rfl
  | failure err => cases err <;> rfl


theorem invD_init (targets : List String) :
    InvD targets (initState initOrch) := ⟨rfl, rfl, Nat.le_refl 0⟩

theorem invD_step {n : Nat} {limit : JNum} {targets : List String}
    (st : RState OrchState Unit Empty) (ev : Event ExecOutcome)
    (st' : RState OrchState Unit Empty) (hD : InvD targets st)
    (hstep : step (deletionTaskSem targets) n limit st ev = some st') :
    InvD targets st' := by
  obtain ⟨hmap, hlen, hcc⟩ := hD
  cases ev with
  | start =>
    rw [step] at hstep
    rw [stepStart] at hstep
    cases hpc : st.pc <;> rw [hpc] at hstep
    case waiting => cases hstep
    case rejected => cases hstep
    case ready =>
      by_cases hlt : st.started < n
      · rw [if_pos hlt] at hstep
        by_cases hauth : st.shared.authFailed = true
        · have hA : (deletionTaskSem targets).onStart st.shared st.started
              = ({ st.shared with results := st.shared.results
                    ++ [skipResult targets st.started] },
                 some (Except.ok ())) := by
            rw [deletionTaskSem]
            simp only [hauth, if_true]
          rw [hA] at hstep
          cases hstep
          refine ⟨?_, ?_, ?_⟩
          · show (st.shared.results ++ [skipResult targets st.started]).map
                DeletionResult.snapshot
              = (st.settled ++ [((st.started, Except.ok ()) : Nat × Except Empty Unit)]).map
                (fun p => targets.getD p.1 "")
            rw [List.map_append, List.map_append, hmap]
            rfl
          · show (st.shared.results ++ [skipResult targets st.started]).length
              = (st.settled ++ [((st.started, Except.ok ()) : Nat × Except Empty Unit)]).length
            rw [List.length_append, List.length_append, hlen]
            rfl
          · show st.shared.completedCount
              ≤ (st.settled ++ [((st.started, Except.ok ()) : Nat × Except Empty Unit)]).length
            rw [List.length_append]
            omega
        · rw [Bool.not_eq_true] at hauth
          have hA : (deletionTaskSem targets).onStart st.shared st.started
              = (st.shared, none) := by
            rw [deletionTaskSem]
            simp only [hauth, Bool.false_eq_true, if_false]
          rw [hA] at hstep
          cases hstep
          exact ⟨hmap, hlen, hcc⟩
      · rw [if_neg hlt] at hstep
        cases hstep
  | finish i c =>
    rw [step] at hstep
    rw [stepFinish] at hstep
    by_cases hmem : i ∈ st.inflight
    · rw [if_pos hmem] at hstep
      have hF : (deletionTaskSem targets).onFinish st.shared i c
          = ({ results := st.shared.results ++ [execOutcomeResult targets i c],
               completedCount := st.shared.completedCount + 1,
               authFailed := st.shared.authFailed || execOutcomeAuth c },
             Except.ok ()) := rfl
      rw [hF] at hstep
      cases hstep
      refine ⟨?_, ?_, ?_⟩
      · show (st.shared.results ++ [execOutcomeResult targets i c]).map
            DeletionResult.snapshot
          = (st.settled ++ [((i, Except.ok ()) : Nat × Except Empty Unit)]).map
            (fun p => targets.getD p.1 "")
        rw [List.map_append, List.map_append, hmap]
        rw [List.map_cons, execOutcomeResult_snapshot]
        rfl
      · show (st.shared.results ++ [execOutcomeResult targets i c]).length
          = (st.settled ++ [((i, Except.ok ()) : Nat × Except Empty Unit)]).length
        rw [List.length_append, List.length_append, hlen]
        rfl
      · show st.shared.completedCount + 1
          ≤ (st.settled ++ [((i, Except.ok ()) : Nat × Except Empty Unit)]).length
        rw [List.length_append]
        simp only [List.length_cons, List.length_nil]
        omega
    · rw [if_neg hmem] at hstep
      cases hstep

/-- Reachability form of the orchestrator invariant. -/
theorem invD_run {n : Nat} {limit : JNum} {targets : List String}
    {evs : List (Event ExecOutcome)} {st : RState OrchState Unit Empty}
    (h : runSched (deletionTaskSem targets) n limit initOrch evs = some st) :
    InvD targets st :=
  runFrom_inv (fun st ev st' => invD_step st ev st') evs _ st (invD_init targets) h

/-- `completedCount` advances by exactly one per settlement of a
non-skipped task (the `finish` events) and at no other time. -/
theorem completed_eq_countFinish {n : Nat} {limit : JNum} {targets : List String} :
    ∀ (evs : List (Event ExecOutcome)) (st st' : RState OrchState Unit Empty),
      runFrom (deletionTaskSem targets) n limit st evs = some st' →
      st'.shared.completedCount = st.shared.completedCount + countFinishEvents evs := by
  intro evs
  induction evs with
  | nil =>
    intro st st' h
    rw [runFrom] at h
    cases h
    rfl
  | cons e evs ih =>
    intro st st' h
    rw [runFrom] at h
    cases h2 : step (deletionTaskSem targets) n limit st e with
    | none => rw [h2] at h; cases h
    | some st2 =>
      rw [h2] at h
      have hrest := ih st2 st' h
      cases e with
      | start =>
        have hsame : st2.shared.completedCount = st.shared.completedCount := by
          rw [step] at h2
          rw [stepStart] at h2
          cases hpc : st.pc <;> rw [hpc] at h2
          case waiting => cases h2
          case rejected => cases h2
          case ready =>
            by_cases hlt : st.started < n
            · rw [if_pos hlt] at h2
              by_cases hauth : st.shared.authFailed = true
              · have hA : (deletionTaskSem targets).onStart st.shared st.started
                    = ({ st.shared with results := st.shared.results
                          ++ [skipResult targets st.started] },
                       some (Except.ok ())) := by
                  rw [deletionTaskSem]
                  simp only [hauth, if_true]
                rw [hA] at h2
                cases h2
                rfl
              · rw [Bool.not_eq_true] at hauth
                have hA : (deletionTaskSem targets).onStart st.shared st.started
                    = (st.shared, none) := by
                  rw [deletionTaskSem]
                  simp only [hauth, Bool.false_eq_true, if_false]
                rw [hA] at h2
                cases h2
                rfl
            · rw [if_neg hlt] at h2
              cases h2
        rw [countFinishEvents, hrest, hsame]
      | finish i c =>
        have hinc : st2.shared.completedCount = st.shared.completedCount + 1 := by
          rw [step] at h2
          rw [stepFinish] at h2
          by_cases hmem : i ∈ st.inflight
          · rw [if_pos hmem] at h2
            have hF : (deletionTaskSem targets).onFinish st.shared i c
                = ({ results := st.shared.results ++ [execOutcomeResult targets i c],
                     completedCount := st.shared.completedCount + 1,
                     authFailed := st.shared.authFailed || execOutcomeAuth c },
                   Except.ok ()) := rfl
            rw [hF] at h2
            cases h2
            rfl
          · rw [if_neg hmem] at h2
            cases h2
        rw [countFinishEvents, hrest, hinc]
        omega

/-!
String facts used by the aggregation and credential claims
-/

/-- Success and failure outcomes partition the outcome list. -/
theorem successCount_add_failureCount (rs : List DeletionResult) :
    successCount rs + failureCount rs = rs.length := by
  induction rs with
  | nil => rfl
  | cons r t ih =>
    rw [successCount, failureCount, List.filter_cons, List.filter_cons]
    cases hr : r.success
    · rw [if_neg (by simp [hr]), if_pos (by simp [hr])]
      rw [successCount, failureCount] at ih
      simp only [List.length_cons]
      omega
    · rw [if_pos (by simp [hr]), if_neg (by simp [hr])]
      rw [successCount, failureCount] at ih
      simp only [List.length_cons]
      omega

/-- A pattern matches at the head of itself followed by anything. -/
theorem leadMatch_self_append (pat b : List Char) : leadMatch pat (pat ++ b) = true := by
  induction pat with
  | nil => rfl
  | cons p ps ih =>
    rw [List.cons_append, leadMatch, ih]
    simp

/-- The empty pattern occurs everywhere. -/
theorem subMatch_nil (l : List Char) : subMatch [] l = true := by
  cases l with
  | nil => rfl
  | cons c cs =>
    show (leadMatch [] (c :: cs) || subMatch [] cs) = true
    rw [leadMatch]
    rfl

/-- A contiguous occurrence is found wherever it sits. -/
theorem subMatch_append (a pat b : List Char) : subMatch pat (a ++ pat ++ b) = true := by
  induction a with
  | nil =>
    rw [List.nil_append]
    cases hp : pat with
    | nil => exact subMatch_nil _
    | cons p ps =>
      rw [List.cons_append]
      show (leadMatch (p :: ps) (p :: (ps ++ b)) || subMatch (p :: ps) (ps ++ b)) = true
      have h2 : leadMatch (p :: ps) (p :: (ps ++ b)) = true := by
        have := leadMatch_self_append (p :: ps) b
        rw [List.cons_append] at this
        exact this
      rw [h2]
      rfl
  | cons x a ih =>
    rw [List.cons_append]
    show (leadMatch pat (x :: (a ++ pat ++ b)) || subMatch pat (a ++ pat ++ b)) = true
    rw [ih]
    simp

/-- Escaping is the identity on quote-free text. -/
theorem flatMap_escChar_id {l : List Char} (h : ∀ c ∈ l, c ≠ '\'') :
    l.flatMap escChar = l := by
  induction l with
  | nil => rfl
  | cons c t ih =>
    rw [List.flatMap_cons, escChar, if_neg (h c (List.mem_cons_self c t)),
      ih (fun d hd2 => h d (List.mem_cons_of_mem c hd2))]
    rfl

/-- A credential without quote characters is untouched by the escaping. -/
theorem escapeSingleQuote_id {pwd : String}
    (h : ∀ c ∈ pwd.data, c ≠ '\'') : escapeSingleQuote pwd = pwd := by
  rw [escapeSingleQuote, flatMap_escChar_id h]


/-- Inside quotes, an ordinary character is consumed literally. -/
theorem sqParse_inside_cons {c : Char} (hc : ¬c = '\'') (r : List Char) :
    sqParse SQMode.inside (c :: r) = (sqParse SQMode.inside r).map (c :: ·) := by
  show (if c = '\'' then sqParse SQMode.outside r
    else (sqParse SQMode.inside r).map (c :: ·))
    = (sqParse SQMode.inside r).map (c :: ·)
  rw [if_neg hc]

/-- Parsing the escaped text from inside the opening quote recovers the
original characters once the closing quote is reached. -/
theorem sqParse_escape (cs : List Char) :
    sqParse SQMode.inside (cs.flatMap escChar ++ ['\'']) = some cs := by
  induction cs with
  | nil => rfl
  | cons c cs ih =>
    by_cases hc : c = '\''
    · subst hc
      rw [List.flatMap_cons, escChar, if_pos rfl]
      show (sqParse SQMode.inside (cs.flatMap escChar ++ ['\''])).map ('\'' :: ·)
        = some ('\'' :: cs)
      rw [ih]
      rfl
    · rw [List.flatMap_cons, escChar, if_neg hc]
      show sqParse SQMode.inside (c :: (cs.flatMap escChar ++ ['\''])) = some (c :: cs)
      rw [sqParse_inside_cons hc, ih]
      rfl

/-- The quoted, escaped credential denotes exactly the original credential
as a shell word: what `printf` receives as its argument — and therefore
what reaches `sudo -S` on standard input (with a trailing newline) — is the
credential itself. -/
theorem sqParse_roundtrip (pwd : String) :
    sqParse SQMode.outside ('\'' :: (escapeSingleQuote pwd).data ++ ['\''])
      = some pwd.data := by
  show sqParse SQMode.inside (pwd.data.flatMap escChar ++ ['\'']) = some pwd.data
  exact sqParse_escape pwd.data

/-- An all-whitespace credential trims to the empty string. -/
theorem jsTrim_eq_empty {s : String} (h : ∀ c ∈ s.data, c.isWhitespace = true) :
    jsTrim s = "" := by
  rw [jsTrim, List.dropWhile_eq_nil_iff.mpr h]
  rfl

/-!
The claims
-/

/-- C1: for every task function, every item list and every integer limit
L ≥ 1, at no reachable point of a `runWithConcurrencyLimit` run are more
than L tasks in flight (started but not yet settled); and whenever exactly
L tasks are in flight, no further task can be admitted — the loop is
suspended on `Promise.race` until one in-flight task settles. (When
L > items.length the gate at line 58 is skipped, but then at most
items.length < L tasks exist at all, so the bound still holds.) -/
theorem bounded_concurrency_C1 {σ C R E : Type} (ts : TaskSem σ C R E) (s0 : σ)
    (n : Nat) (L : Nat) (hL : 1 ≤ L) (evs : List (Event C)) (st : RState σ R E)
    (h : runSched ts n (JNum.num (L : Int)) s0 evs = some st) :
    st.inflight.length ≤ L
    ∧ (st.inflight.length = L →
        step ts n (JNum.num (L : Int)) st Event.start = none) := by
  have hl1 : (1 : Int) ≤ (L : Int) := by exact_mod_cast hL
  obtain ⟨hS, hB⟩ := invSB_run hl1 h
  obtain ⟨hB1, hB2⟩ := hB
  constructor
  · omega
  · intro heq
    have hpc : ¬ st.pc = MainPC.ready := by
      intro hr
      have := hB1 hr
      omega
    rw [step]
    rw [stepStart]
    cases hpcc : st.pc
    · exact absurd hpcc hpc
    · rfl
    · rfl

theorem bounded_concurrency_C1_witness :
    (⟨MainPC.waiting, 1, [0], [], 0, initOrch⟩
        : RState OrchState Unit Empty).inflight.length ≤ 1
    ∧ ((⟨MainPC.waiting, 1, [0], [], 0, initOrch⟩
        : RState OrchState Unit Empty).inflight.length = 1 →
      step (deletionTaskSem ["a", "b"]) 2 (JNum.num ((1 : Nat) : Int))
        ⟨MainPC.waiting, 1, [0], [], 0, initOrch⟩ Event.start = none) :=
  bounded_concurrency_C1 (deletionTaskSem ["a", "b"]) initOrch 2 1 (by decide)
    [Event.start] ⟨MainPC.waiting, 1, [0], [], 0, initOrch⟩ rfl

/-- C2 counterexample: with targets `["a", "b"]` and concurrency limit
L = 2 = N, a run in which target 1's command completes before target 0's
(both succeed, all tasks settled) leaves the `results` array of
`deleteSnapshots` as `["b", "a"]` — outcome 0 is for target "b", not
`targets[0] = "a"`. The outcomes are pushed in completion order (lines 410,
453), and the input-ordered array the runner resolves with is discarded. -/
theorem completion_order_C2_counterexample :
    (runSched (deletionTaskSem ["a", "b"]) 2 (JNum.num 2) initOrch
        [Event.start, Event.start, Event.finish 1 ExecOutcome.success,
         Event.finish 0 ExecOutcome.success]).map
      (fun st => (st.shared.results.map DeletionResult.snapshot, st.settled.length))
      = some (["b", "a"], 2)
    ∧ ["b", "a"] ≠ ["a", "b"] := by
  constructor
  · rfl
  · decide

/-- C2 amended: for every target list, every limit and every completed run
(all tasks settled), the `results` array of `deleteSnapshots` has exactly
one outcome per submitted target — length N, and its snapshot column is a
permutation of the targets (no duplicates, no omissions, skipped targets
included) — but the outcomes appear in completion order, so `outcome[i]`
need not correspond to `targets[i]` (see the counterexample). -/
theorem outcome_multiset_C2_amended (targets : List String) (limit : JNum)
    (evs : List (Event ExecOutcome)) (st : RState OrchState Unit Empty)
    (h : runSched (deletionTaskSem targets) targets.length limit initOrch evs = some st)
    (hdone : st.settled.length = targets.length) :
    st.shared.results.length = targets.length
    ∧ (st.shared.results.map DeletionResult.snapshot).Perm targets := by
  have hS := invS_run h
  obtain ⟨hmap, hlen, _⟩ := invD_run h
  obtain ⟨hinfl, hst, hkeysperm⟩ := invS_complete hS hdone
  refine ⟨by rw [hlen, hdone], ?_⟩
  rw [hmap]
  have h1 : st.settled.map (fun p => targets.getD p.1 "")
      = (st.settled.map Prod.fst).map (fun i => targets.getD i "") := by
    rw [List.map_map]
    rfl
  rw [h1]
  have h2 := hkeysperm.map (fun i => targets.getD i "")
  rw [map_getD_range] at h2
  exact h2

theorem outcome_multiset_C2_witness :
    (⟨MainPC.ready, 1, [], [(0, Except.ok ())], 0,
        ⟨[DeletionResult.mk "a" true none], 1, false⟩⟩
      : RState OrchState Unit Empty).shared.results.length
        = (["a"] : List String).length
    ∧ (((⟨MainPC.ready, 1, [], [(0, Except.ok ())], 0,
        ⟨[DeletionResult.mk "a" true none], 1, false⟩⟩
      : RState OrchState Unit Empty).shared.results.map
        DeletionResult.snapshot).Perm ["a"]) :=
  outcome_multiset_C2_amended ["a"] (JNum.num 1)
    [Event.start, Event.finish 0 ExecOutcome.success]
    ⟨MainPC.ready, 1, [], [(0, Except.ok ())], 0,
      ⟨[DeletionResult.mk "a" true none], 1, false⟩⟩ rfl rfl

/-- C3: in every state of a batch deletion run in which the shared
`authFailed` flag is set (one task's stderr matched the authentication
signature): (1) admitting the next task settles it immediately with the
skipped outcome — `success = false`, the skip reason of line 390 — pushes
nothing onto the in-flight set (no privileged command is invoked for it),
and leaves the flag set; (2) a task already in flight still runs to
completion: its settlement pushes exactly the outcome computed from its own
command result (`execOutcomeResult`), unaffected by the flag, and earlier
pushed outcomes are never overwritten (`results` only ever grows by
appending). Since the flag is never cleared, every task started after the
flag is set is skipped. -/
theorem short_circuit_C3 (targets : List String) (limit : JNum)
    (st : RState OrchState Unit Empty) (hauth : st.shared.authFailed = true) :
    (∀ st', step (deletionTaskSem targets) targets.length limit st Event.start
        = some st' →
      st'.shared.authFailed = true
      ∧ st'.shared.results = st.shared.results ++ [skipResult targets st.started]
      ∧ st'.inflight = st.inflight
      ∧ st'.settled = st.settled ++ [(st.started, Except.ok ())])
    ∧ (∀ (i : Nat) (c : ExecOutcome) st',
        step (deletionTaskSem targets) targets.length limit st (Event.finish i c)
          = some st' →
      st'.shared.authFailed = true
      ∧ st'.shared.results = st.shared.results ++ [execOutcomeResult targets i c]
      ∧ st'.shared.completedCount = st.shared.completedCount + 1) := by
  constructor
  · intro st' hstep
    rw [step] at hstep
    rw [stepStart] at hstep
    cases hpc : st.pc <;> rw [hpc] at hstep
    case waiting => cases hstep
    case rejected => cases hstep
    case ready =>
      by_cases hlt : st.started < targets.length
      · rw [if_pos hlt] at hstep
        have hA : (deletionTaskSem targets).onStart st.shared st.started
            = ({ st.shared with results := st.shared.results
                  ++ [skipResult targets st.started] },
               some (Except.ok ())) := by
          rw [deletionTaskSem]
          simp only [hauth, if_true]
        rw [hA] at hstep
        cases hstep
        exact ⟨hauth, rfl, rfl, rfl⟩
      · rw [if_neg hlt] at hstep
        cases hstep
  · intro i c st' hstep
    rw [step] at hstep
    rw [stepFinish] at hstep
    by_cases hmem : i ∈ st.inflight
    · rw [if_pos hmem] at hstep
      have hF : (deletionTaskSem targets).onFinish st.shared i c
          = ({ results := st.shared.results ++ [execOutcomeResult targets i c],
               completedCount := st.shared.completedCount + 1,
               authFailed := st.shared.authFailed || execOutcomeAuth c },
             Except.ok ()) := rfl
      rw [hF] at hstep
      cases hstep
      refine ⟨?_, rfl, rfl⟩
      show (st.shared.authFailed || execOutcomeAuth c) = true
      rw [hauth]
      rfl
    · rw [if_neg hmem] at hstep
      cases hstep

theorem short_circuit_C3_witness :
    ((⟨MainPC.ready, 1, [], [(0, Except.ok ())], 0,
        ⟨[DeletionResult.mk "a" false (some "Sorry, try again.")], 1, true⟩⟩
      : RState OrchState Unit Empty).shared.authFailed = true)
    ∧ ((⟨MainPC.ready, 2, [], [(0, Except.ok ()), (1, Except.ok ())], 0,
        ⟨[DeletionResult.mk "a" false (some "Sorry, try again."),
          DeletionResult.mk "b" false (some skipMessage)], 1, true⟩⟩
      : RState OrchState Unit Empty).shared.results
        = [DeletionResult.mk "a" false (some "Sorry, try again.")]
          ++ [skipResult ["a", "b"] 1]) := by
  constructor
  · rfl
  · exact (((short_circuit_C3 ["a", "b"] (JNum.num 1)
      ⟨MainPC.ready, 1, [], [(0, Except.ok ())], 0,
        ⟨[DeletionResult.mk "a" false (some "Sorry, try again.")], 1, true⟩⟩
      rfl).1
      ⟨MainPC.ready, 2, [], [(0, Except.ok ()), (1, Except.ok ())], 0,
        ⟨[DeletionResult.mk "a" false (some "Sorry, try again."),
          DeletionResult.mk "b" false (some skipMessage)], 1, true⟩⟩ rfl).2.1)

/-- One loop iteration never changes `completedCount`: an admitted task
either goes in flight (nothing pushed yet) or is skipped — and the skip
path (lines 386-393) returns without incrementing the counter. -/
theorem deletion_stepStart_completed {targets : List String} {n : Nat} {limit : JNum}
    {st st' : RState OrchState Unit Empty}
    (h : stepStart (deletionTaskSem targets) n limit st = some st') :
    st'.shared.completedCount = st.shared.completedCount := by
  rw [stepStart] at h
  cases hpc : st.pc <;> rw [hpc] at h
  case waiting => cases h
  case rejected => cases h
  case ready =>
    by_cases hlt : st.started < n
    · rw [if_pos hlt] at h
      by_cases hauth : st.shared.authFailed = true
      · have hA : (deletionTaskSem targets).onStart st.shared st.started
            = ({ st.shared with results := st.shared.results
                  ++ [skipResult targets st.started] },
               some (Except.ok ())) := by
          rw [deletionTaskSem]
          simp only [hauth, if_true]
        rw [hA] at h
        cases h
        rfl
      · rw [Bool.not_eq_true] at hauth
        have hA : (deletionTaskSem targets).onStart st.shared st.started
            = (st.shared, none) := by
          rw [deletionTaskSem]
          simp only [hauth, Bool.false_eq_true, if_false]
        rw [hA] at h
        cases h
        rfl
    · rw [if_neg hlt] at h
      cases h

/-- Every settlement of a non-skipped task increments `completedCount` by
exactly one (lines 413 and 470: both the success and the failure path). -/
theorem deletion_stepFinish_completed {targets : List String}
    {st st' : RState OrchState Unit Empty} {i : Nat} {c : ExecOutcome}
    (h : stepFinish (deletionTaskSem targets) st i c = some st') :
    st'.shared.completedCount = st.shared.completedCount + 1 := by
  rw [stepFinish] at h
  by_cases hmem : i ∈ st.inflight
  · rw [if_pos hmem] at h
    have hF : (deletionTaskSem targets).onFinish st.shared i c
        = ({ results := st.shared.results ++ [execOutcomeResult targets i c],
             completedCount := st.shared.completedCount + 1,
             authFailed := st.shared.authFailed || execOutcomeAuth c },
           Except.ok ()) := rfl
    rw [hF] at h
    cases h
    rfl
  · rw [if_neg hmem] at h
    cases h

/-- C4 counterexample: targets `["a", "b"]`, limit 1. Target 0's command
fails with a sudo rejection on stderr (settling it, `completedCount = 1`);
target 1 is then admitted and skipped, so it settles immediately — all
2 tasks are settled, yet `completedCount` is still 1, not `total = 2`: the
skip path returns without incrementing the counter (lines 386-393). -/
theorem completed_count_C4_counterexample :
    (runSched (deletionTaskSem ["a", "b"]) 2 (JNum.num 1) initOrch
        [Event.start,
         Event.finish 0 (ExecOutcome.failure
           (some ⟨"Command failed", some "Sorry, try again.", none⟩)),
         Event.start]).map
      (fun st => (st.settled.length, st.shared.completedCount))
      = some (2, 1)
    ∧ (1 : Nat) ≠ 2 := by
  constructor
  · rfl
  · decide

/-- C4 amended: in every batch deletion run, `completedCount` equals the
number of settlements of non-skipped tasks so far — so it is monotonically
non-decreasing, never exceeds the number of settled tasks (hence never
exceeds `total`), increases by exactly 1 when a task settles through
success or generic failure, and is left unchanged by an admission —
including the skip path, so a skipped target settles without being
counted, and after all tasks settle `completedCount` is `total` minus the
number of skipped targets, not `total`. -/
theorem completed_count_C4_amended (targets : List String) (limit : JNum)
    (evs : List (Event ExecOutcome)) (st : RState OrchState Unit Empty)
    (h : runSched (deletionTaskSem targets) targets.length limit initOrch evs = some st) :
    st.shared.completedCount = countFinishEvents evs
    ∧ st.shared.completedCount ≤ st.settled.length
    ∧ st.settled.length ≤ targets.length
    ∧ (∀ (i : Nat) (c : ExecOutcome) st',
        step (deletionTaskSem targets) targets.length limit st (Event.finish i c)
          = some st' →
        st'.shared.completedCount = st.shared.completedCount + 1)
    ∧ (∀ st', step (deletionTaskSem targets) targets.length limit st Event.start
          = some st' →
        st'.shared.completedCount = st.shared.completedCount) := by
  have hS := invS_run h
  obtain ⟨_, _, hcc⟩ := invD_run h
  have hcount := completed_eq_countFinish evs (initState initOrch) st h
  have hsettled : st.settled.length ≤ targets.length := by
    have hlen := hS.1.length_eq
    simp only [List.length_append, List.length_map, List.length_range] at hlen
    have := hS.2.1
    omega
  refine ⟨?_, hcc, hsettled, ?_, ?_⟩
  · rw [hcount]
    show 0 + countFinishEvents evs = countFinishEvents evs
    omega
  · intro i c st' hstep
    rw [step] at hstep
    exact deletion_stepFinish_completed hstep
  · intro st' hstep
    rw [step] at hstep
    exact deletion_stepStart_completed hstep

theorem completed_count_C4_witness :
    ((⟨MainPC.ready, 1, [], [(0, Except.ok ())], 0,
        ⟨[DeletionResult.mk "a" true none], 1, false⟩⟩
      : RState OrchState Unit Empty).shared.completedCount
        = countFinishEvents [Event.start, Event.finish 0 ExecOutcome.success])
    ∧ ((⟨MainPC.ready, 1, [], [(0, Except.ok ())], 0,
        ⟨[DeletionResult.mk "a" true none], 1, false⟩⟩
      : RState OrchState Unit Empty).shared.completedCount
        ≤ (⟨MainPC.ready, 1, [], [(0, Except.ok ())], 0,
        ⟨[DeletionResult.mk "a" true none], 1, false⟩⟩
      : RState OrchState Unit Empty).settled.length) :=
  ⟨(completed_count_C4_amended ["a"] (JNum.num 1)
      [Event.start, Event.finish 0 ExecOutcome.success]
      ⟨MainPC.ready, 1, [], [(0, Except.ok ())], 0,
        ⟨[DeletionResult.mk "a" true none], 1, false⟩⟩ rfl).1,
   (completed_count_C4_amended ["a"] (JNum.num 1)
      [Event.start, Event.finish 0 ExecOutcome.success]
      ⟨MainPC.ready, 1, [], [(0, Except.ok ())], 0,
        ⟨[DeletionResult.mk "a" true none], 1, false⟩⟩ rfl).2.1⟩

/-- C5 counterexample: two items, limit 3 (gate inactive, both tasks start
at once). Task 0's promise rejects, task 1 resolves; every task has
settled, yet the runner does not resolve with one result per item —
`Promise.all(results)` propagates the rejection and the promise returned by
`runWithConcurrencyLimit` rejects. A failing (rejecting) task does abort
the runner; only failures converted to outcome values inside the task are
harmless. -/
theorem task_rejection_C5_counterexample :
    (runSched mixedSem 2 (JNum.num 3) ()
        [Event.start, Event.start, Event.finish 0 false, Event.finish 1 true]).map
      (fun st => (st.settled.length, runnerFinal 2 st))
      = some (2, RunnerFinal.rejectedF)
    ∧ (RunnerFinal.rejectedF : RunnerFinal Unit) ≠ RunnerFinal.resolved [(), ()] := by
  constructor
  · rfl
  · intro hcon
    cases hcon

/-- C5 amended: provided every individual task settles by resolving — the
discipline the source relies on: the deletion task catches all its failures
and turns them into outcome values, so its rejection type is `Empty` — the
runner always resolves once all tasks have settled, with exactly one result
per item, in input order (part 1); and for an empty item list the runner
resolves immediately with the empty result sequence, no event (neither an
admission nor a completion) being possible at all, so the task function is
never invoked (part 2). A task whose promise rejects instead makes the
runner reject (see the counterexample). -/
theorem runner_resolution_C5_amended (σ C R : Type) (ts : TaskSem σ C R Empty)
    (s0 : σ) (limit : JNum) :
    (∀ (n : Nat) (evs : List (Event C)) (st : RState σ R Empty),
      runSched ts n limit s0 evs = some st → st.settled.length = n →
      runnerFinal n st = RunnerFinal.resolved (okValues n st)
      ∧ (okValues n st).length = n
      ∧ (∀ i, i < n → ∃ r, (okValues n st)[i]? = some r
          ∧ List.lookup i st.settled = some (Except.ok r)))
    ∧ (runSched ts 0 limit s0 ([] : List (Event C)) = some (initState s0)
      ∧ runnerFinal 0 (initState s0 : RState σ R Empty) = RunnerFinal.resolved []
      ∧ ∀ ev : Event C, step ts 0 limit (initState s0) ev = none) := by
  refine ⟨?_, rfl, rfl, ?_⟩
  · intro n evs st h hdone
    exact runnerFinal_resolved h hdone
  · intro ev
    cases ev with
    | start =>
      rw [step]
      rw [stepStart]
      show (if (0 : Nat) < 0 then _ else none) = none
      rw [if_neg (by omega)]
    | finish i c =>
      rw [step]
      rw [stepFinish]
      show (if i ∈ ([] : List Nat) then _ else none) = none
      rw [if_neg (by intro hcon; cases hcon)]

theorem runner_resolution_C5_witness :
    (runnerFinal 1 (⟨MainPC.ready, 1, [], [(0, Except.ok ())], 0,
        ⟨[DeletionResult.mk "a" true none], 1, false⟩⟩
      : RState OrchState Unit Empty)
      = RunnerFinal.resolved (okValues 1
          (⟨MainPC.ready, 1, [], [(0, Except.ok ())], 0,
            ⟨[DeletionResult.mk "a" true none], 1, false⟩⟩
          : RState OrchState Unit Empty)))
    ∧ runnerFinal 0 (initState initOrch : RState OrchState Unit Empty)
        = RunnerFinal.resolved [] :=
  ⟨((runner_resolution_C5_amended OrchState ExecOutcome Unit
      (deletionTaskSem ["a"]) initOrch (JNum.num 1)).1 1
      [Event.start, Event.finish 0 ExecOutcome.success]
      ⟨MainPC.ready, 1, [], [(0, Except.ok ())], 0,
        ⟨[DeletionResult.mk "a" true none], 1, false⟩⟩ rfl rfl).1,
   (runner_resolution_C5_amended OrchState ExecOutcome Unit
      (deletionTaskSem ["a"]) initOrch (JNum.num 1)).2.2.1⟩

/-- C6 counterexample: the preference string "7" yields concurrency limit 7,
outside the documented 1–5 range (no clamping, line 376); the unparsable
preference string "abc" yields `NaN`, not the safe default 3 (the `|| "3"`
fallback only fires for an absent or empty preference, and
`parseInt("abc")` is `NaN`). -/
theorem concurrency_pref_C6_counterexample :
    concurrencyLimitOf (some "7") = JNum.num 7
    ∧ ¬((7 : Int) ≤ 5)
    ∧ concurrencyLimitOf (some "abc") = JNum.nan
    ∧ JNum.nan ≠ JNum.num 3 := by
  refine ⟨by decide, by decide, by decide, ?_⟩
  intro hcon
  cases hcon

/-- C6 amended: the concurrency limit defaults to 3 exactly when the
preference is absent or the empty string; any other string is given to
`parseInt` and its value is used as-is — an integer result of any
magnitude or sign is neither clamped to 1–5 nor replaced, and an
unparsable string yields `NaN` (which, fed to the runner, makes the gate
`limit <= items.length` false, removing the concurrency bound entirely). -/
theorem concurrency_pref_C6_amended :
    concurrencyLimitOf none = JNum.num 3
    ∧ concurrencyLimitOf (some "") = JNum.num 3
    ∧ ∀ (s : String) (z : Int), jsParseInt s = JNum.num z →
        concurrencyLimitOf (some s) = JNum.num z := by
  refine ⟨by decide, by decide, ?_⟩
  intro s z hz
  rw [concurrencyLimitOf]
  by_cases hs : s = ""
  · subst hs
    have hnan : jsParseInt "" = JNum.nan := by decide
    rw [hnan] at hz
    cases hz
  · rw [if_neg hs]
    exact hz

theorem concurrency_pref_C6_witness :
    concurrencyLimitOf none = JNum.num 3
    ∧ concurrencyLimitOf (some "") = JNum.num 3
    ∧ concurrencyLimitOf (some "7") = JNum.num 7 :=
  ⟨concurrency_pref_C6_amended.1, concurrency_pref_C6_amended.2.1,
   concurrency_pref_C6_amended.2.2 "7" 7 (by decide)⟩

/-- C7 counterexample: for the credential "hunter2" and a target id, the
whole pipeline string — credential included — is one command-line argument
of the `/bin/sh` process spawned by `exec`, so the secret does appear in
the argv of an invoked process (visible in process listings), contrary to
the claim that it is never part of any invoked process's command line. -/
theorem credential_argv_C7_counterexample :
    execShellArgv (buildDeleteCommand (escapeSingleQuote "hunter2") "2024-01-13-120000")
      = ["/bin/sh", "-c",
         buildDeleteCommand (escapeSingleQuote "hunter2") "2024-01-13-120000"]
    ∧ jsIncludes (buildDeleteCommand (escapeSingleQuote "hunter2") "2024-01-13-120000")
        "hunter2" = true := by
  constructor
  · rfl
  · decide

/-- C7 amended: the credential does reach `sudo -S` via standard input —
the quoted, escaped credential word denotes exactly the original credential
(the escaping round-trips), `printf` emits it followed by a newline into
the pipe — and the `sudo`/`tmutil` stage of the pipeline is a fixed text
mentioning only the target id, so the credential is not an argument of the
privileged command itself. But the composed pipeline, quoted credential
included, is passed as a single argv element to the `/bin/sh` process that
`exec` spawns, so the secret is still exposed through process listings
(whenever the credential text survives quoting, e.g. for any quote-free
credential, it occurs verbatim in that argv element). -/
theorem credential_channel_C7_amended (pwd id : String) :
    sqParse SQMode.outside ('\'' :: (escapeSingleQuote pwd).data ++ ['\''])
        = some pwd.data
    ∧ buildDeleteCommand (escapeSingleQuote pwd) id
        = ("printf " ++ "'%s\\n' '" ++ escapeSingleQuote pwd)
          ++ ("' | sudo -S /usr/bin/tmutil deletelocalsnapshots " ++ id)
    ∧ execShellArgv (buildDeleteCommand (escapeSingleQuote pwd) id)
        = ["/bin/sh", "-c", buildDeleteCommand (escapeSingleQuote pwd) id]
    ∧ ((∀ c ∈ pwd.data, c ≠ '\'') →
        jsIncludes (buildDeleteCommand (escapeSingleQuote pwd) id) pwd = true) := by
  refine ⟨sqParse_roundtrip pwd, ?_, rfl, ?_⟩
  · rw [buildDeleteCommand, String.append_assoc]
  · intro hq
    rw [jsIncludes, buildDeleteCommand, escapeSingleQuote_id hq]
    have hdata : (("printf " ++ "'%s\\n' '" ++ pwd
          ++ "' | sudo -S /usr/bin/tmutil deletelocalsnapshots " ++ id)).data
        = ("printf " ++ "'%s\\n' '").data ++ pwd.data
          ++ ("' | sudo -S /usr/bin/tmutil deletelocalsnapshots " ++ id).data := by
      simp only [String.data_append, List.append_assoc]
    rw [hdata]
    exact subMatch_append _ pwd.data _

theorem credential_channel_C7_witness :
    sqParse SQMode.outside
        ('\'' :: (escapeSingleQuote "hunter2").data ++ ['\''])
        = some ("hunter2" : String).data
    ∧ jsIncludes (buildDeleteCommand (escapeSingleQuote "hunter2") "X") "hunter2"
        = true :=
  ⟨(credential_channel_C7_amended "hunter2" "X").1,
   (credential_channel_C7_amended "hunter2" "X").2.2.2 (by decide)⟩

/-- C9: an empty or whitespace-only credential is rejected locally by the
submit handler with the validation message of line 107; `verifyPassword`
is never reached, so no verification subprocess (no privileged-escalation
probe) is spawned. -/
theorem empty_credential_C9 (password : String)
    (hws : ∀ c ∈ password.data, c.isWhitespace = true) :
    handleSubmitAction password
        = SubmitAction.rejectedLocally "Please enter your password"
    ∧ ∀ cmd, handleSubmitAction password ≠ SubmitAction.verifyInvoked cmd := by
  have ht := jsTrim_eq_empty hws
  constructor
  · rw [handleSubmitAction, if_pos ht]
  · intro cmd hcon
    rw [handleSubmitAction, if_pos ht] at hcon
    cases hcon

theorem empty_credential_C9_witness :
    handleSubmitAction "   "
        = SubmitAction.rejectedLocally "Please enter your password"
    ∧ ∀ cmd, handleSubmitAction "   " ≠ SubmitAction.verifyInvoked cmd :=
  empty_credential_C9 "   " (by decide)

/-- C8: for the outcome list of any completed batch deletion run,
`successCount` counts the outcomes with `succeeded = true` and
`failureCount` the outcomes with `succeeded = false` (skips included) —
together they exhaust the list — and the run summary is `NoOp` exactly when
the outcome list is empty (which happens exactly when nothing was
selected, in which case the guard at lines 329-336 returns before any task
runs), `AllSucceeded` when `failureCount = 0`, `AllFailed` when
`successCount = 0`, and `Partial` otherwise. -/
theorem aggregation_C8 (selected : List String) (limit : JNum)
    (evs : List (Event ExecOutcome)) (st : RState OrchState Unit Empty)
    (h : runSched (deletionTaskSem selected) selected.length limit initOrch evs = some st)
    (hdone : st.settled.length = selected.length) :
    (st.shared.results = [] ↔ selected = [])
    ∧ successCount st.shared.results + failureCount st.shared.results
        = st.shared.results.length
    ∧ deleteSummary selected st.shared.results
        = (if st.shared.results = [] then RunClass.noOp
           else if failureCount st.shared.results = 0 then RunClass.allSucceeded
           else if successCount st.shared.results = 0 then RunClass.allFailed
           else RunClass.partialResult) := by
  obtain ⟨_, hlen, _⟩ := invD_run h
  have hlen2 : st.shared.results.length = selected.length := by rw [hlen, hdone]
  have hiff : st.shared.results = [] ↔ selected = [] := by
    constructor
    · intro he
      rw [he] at hlen2
      exact List.length_eq_zero.mp hlen2.symm
    · intro he
      rw [he] at hlen2
      simp only [List.length_nil] at hlen2
      exact List.length_eq_zero.mp hlen2
  refine ⟨hiff, successCount_add_failureCount _, ?_⟩
  by_cases hsel : selected = []
  · have hre : st.shared.results = [] := hiff.mpr hsel
    rw [deleteSummary, if_pos (by rw [hsel]; rfl), if_pos hre]
  · have hre : ¬ st.shared.results = [] := fun hh => hsel (hiff.mp hh)
    rw [deleteSummary, if_neg (by simpa [List.isEmpty_iff] using hsel), if_neg hre]
    rw [classifyResults]

theorem aggregation_C8_witness :
    ((⟨MainPC.ready, 1, [], [(0, Except.ok ())], 0,
        ⟨[DeletionResult.mk "a" true none], 1, false⟩⟩
      : RState OrchState Unit Empty).shared.results = [] ↔ (["a"] : List String) = [])
    ∧ successCount (⟨MainPC.ready, 1, [], [(0, Except.ok ())], 0,
          ⟨[DeletionResult.mk "a" true none], 1, false⟩⟩
        : RState OrchState Unit Empty).shared.results
        + failureCount (⟨MainPC.ready, 1, [], [(0, Except.ok ())], 0,
          ⟨[DeletionResult.mk "a" true none], 1, false⟩⟩
        : RState OrchState Unit Empty).shared.results
        = (⟨MainPC.ready, 1, [], [(0, Except.ok ())], 0,
          ⟨[DeletionResult.mk "a" true none], 1, false⟩⟩
        : RState OrchState Unit Empty).shared.results.length
    ∧ deleteSummary ["a"] (⟨MainPC.ready, 1, [], [(0, Except.ok ())], 0,
          ⟨[DeletionResult.mk "a" true none], 1, false⟩⟩
        : RState OrchState Unit Empty).shared.results
        = (if (⟨MainPC.ready, 1, [], [(0, Except.ok ())], 0,
            ⟨[DeletionResult.mk "a" true none], 1, false⟩⟩
          : RState OrchState Unit Empty).shared.results = [] then RunClass.noOp
           else if failureCount (⟨MainPC.ready, 1, [], [(0, Except.ok ())], 0,
            ⟨[DeletionResult.mk "a" true none], 1, false⟩⟩
          : RState OrchState Unit Empty).shared.results = 0 then RunClass.allSucceeded
           else if successCount (⟨MainPC.ready, 1, [], [(0, Except.ok ())], 0,
            ⟨[DeletionResult.mk "a" true none], 1, false⟩⟩
          : RState OrchState Unit Empty).shared.results = 0 then RunClass.allFailed
           else RunClass.partialResult) :=
  aggregation_C8 ["a"] (JNum.num 1) [Event.start, Event.finish 0 ExecOutcome.success]
    ⟨MainPC.ready, 1, [], [(0, Except.ok ())], 0,
      ⟨[DeletionResult.mk "a" true none], 1, false⟩⟩ rfl rfl

/-- C10: `runWithConcurrencyLimit` tolerates every limit outside the
documented `1 ≤ limit ≤ items.length` precondition.
Part 1: when the gate `limit <= items.length` is false — `limit = NaN`
from an unparsable preference, or an integer limit strictly greater than
the item count — the `executing` bookkeeping is skipped entirely: the loop
is never suspended (always `ready`) and the next admission is enabled
whenever items remain, so every task starts immediately.
Part 2: under any limit whatsoever, a run whose promise is still pending
always has an enabled event (an admission or a completion) — no limit
value, zero and negative included, can deadlock the runner.
Part 3: with tasks that settle by resolving, a run is either still pending
or the runner has admitted and settled every task and resolved with the
full result list — so limits of 0 or below still start every task and the
runner still resolves. -/
theorem degenerate_limits_C10 :
    (∀ (σ C R E : Type) (ts : TaskSem σ C R E) (s0 : σ) (n : Nat) (limit : JNum),
      JNum.leNat limit n = false →
      ∀ (evs : List (Event C)) (st : RState σ R E),
        runSched ts n limit s0 evs = some st →
        st.pc = MainPC.ready
        ∧ (st.started < n → step ts n limit st Event.start ≠ none))
    ∧ (∀ (σ C R E : Type) (ts : TaskSem σ C R E) (s0 : σ) (n : Nat) (limit : JNum)
        (c : C) (evs : List (Event C)) (st : RState σ R E),
        runSched ts n limit s0 evs = some st →
        runnerFinal n st = RunnerFinal.pending →
        ∃ ev : Event C, step ts n limit st ev ≠ none)
    ∧ (∀ (σ C R : Type) (ts : TaskSem σ C R Empty) (s0 : σ) (n : Nat) (limit : JNum)
        (evs : List (Event C)) (st : RState σ R Empty),
        runSched ts n limit s0 evs = some st →
        runnerFinal n st = RunnerFinal.pending
        ∨ (st.started = n ∧ st.settled.length = n
            ∧ runnerFinal n st = RunnerFinal.resolved (okValues n st))) := by
  refine ⟨?_, ?_, ?_⟩
  · intro σ C R E ts s0 n limit hg evs st h
    have hpc := invGateOff_run hg h
    refine ⟨hpc, ?_⟩
    intro hlt hcon
    have := stepStart_isSome ts n limit st hpc hlt
    rw [step] at hcon
    rw [hcon] at this
    cases this
  · intro σ C R E ts s0 n limit c evs st h hpend
    have hS := invS_run h
    cases hpc : st.pc
    case rejected =>
      rw [runnerFinal, hpc] at hpend
      cases hpend
    case waiting =>
      have hne := hS.2.2.1 hpc
      cases hinfl : st.inflight with
      | nil => exact absurd hinfl hne
      | cons i t =>
        refine ⟨Event.finish i c, ?_⟩
        intro hcon
        have := stepFinish_isSome ts st i c (by rw [hinfl]; exact List.mem_cons_self i t)
        rw [step] at hcon
        rw [hcon] at this
        cases this
    case ready =>
      by_cases hlt : st.started < n
      · refine ⟨Event.start, ?_⟩
        intro hcon
        have := stepStart_isSome ts n limit st hpc hlt
        rw [step] at hcon
        rw [hcon] at this
        cases this
      · have hst : st.started = n := by
          have := hS.2.1
          omega
        cases hinfl : st.inflight with
        | cons i t =>
          refine ⟨Event.finish i c, ?_⟩
          intro hcon
          have := stepFinish_isSome ts st i c (by rw [hinfl]; exact List.mem_cons_self i t)
          rw [step] at hcon
          rw [hcon] at this
          cases this
        | nil =>
          exfalso
          have hperm := hS.1
          rw [hinfl, List.nil_append, hst] at hperm
          rw [runnerFinal, hpc, if_pos hst] at hpend
          by_cases herr : st.settled.any (fun p => exIsErr p.2) = true
          · rw [herr] at hpend
            cases hpend
          · rw [Bool.not_eq_true] at herr
            rw [herr] at hpend
            have hall : (collected n st).all Option.isSome = true :=
              collected_all_isSome (fun i hi =>
                hperm.mem_iff.mpr (List.mem_range.mpr hi))
            rw [if_neg (by simp), if_pos hall] at hpend
            cases hpend
  · intro σ C R ts s0 n limit evs st h
    have hS := invS_run h
    have hE := invE_run h
    cases hpc : st.pc
    case rejected => exact absurd hpc hE.1
    case waiting =>
      left
      rw [runnerFinal, hpc]
    case ready =>
      by_cases hst : st.started = n
      · cases hinfl : st.inflight with
        | cons i t =>
          left
          have hperm := hS.1
          have hlen := hperm.length_eq
          rw [hinfl] at hlen
          simp only [List.length_append, List.length_cons, List.length_map,
            List.length_range, hst] at hlen
          have hlt : st.settled.length < n := by omega
          rw [runnerFinal, hpc, if_pos hst]
          have hnotall : ¬ (collected n st).all Option.isSome = true := by
            intro hall
            have hsub : ∀ j, j < n → j ∈ st.settled.map Prod.fst := by
              intro j hj
              have hj2 := List.all_eq_true.mp hall _
                (List.mem_map.mpr ⟨j, List.mem_range.mpr hj, rfl⟩)
              rcases Option.isSome_iff_exists.mp hj2 with ⟨v, hv⟩
              exact List.mem_map.mpr ⟨(j, v), mem_of_lookup_eq_some hv, rfl⟩
            have hnodup : (st.settled.map Prod.fst).Nodup := by
              have hnd := hperm.nodup_iff.mpr (List.nodup_range st.started)
              rw [hinfl] at hnd
              exact (List.nodup_append.mp hnd).2.1
            have hsp := (List.nodup_range n).subperm
              (fun j hj => hsub j (List.mem_range.mp hj))
            have := hsp.length_le
            rw [List.length_range, List.length_map] at this
            omega
          have herr : st.settled.any (fun p => exIsErr p.2) = false := by
            rw [List.any_eq_false]
            intro p _
            rw [exIsErr_empty p.2]
            simp
          rw [herr, if_neg (by simp), if_neg hnotall]
        | nil =>
          right
          have hperm := hS.1
          rw [hinfl, List.nil_append, hst] at hperm
          have hdone : st.settled.length = n := by
            have := hperm.length_eq
            rw [List.length_map, List.length_range] at this
            exact this
          exact ⟨hst, hdone, (runnerFinal_resolved h hdone).1⟩
      · left
        rw [runnerFinal, hpc, if_neg hst]

theorem degenerate_limits_C10_witness :
    ((initState initOrch : RState OrchState Unit Empty).pc = MainPC.ready
      ∧ ((initState initOrch : RState OrchState Unit Empty).started < 1 →
          step (deletionTaskSem ["a"]) 1 JNum.nan (initState initOrch)
            Event.start ≠ none))
    ∧ (∃ ev : Event ExecOutcome,
        step (deletionTaskSem ["a"]) 1 (JNum.num 0) (initState initOrch) ev ≠ none)
    ∧ (runnerFinal 1 (⟨MainPC.ready, 1, [], [(0, Except.ok ())], 0,
          ⟨[DeletionResult.mk "a" true none], 1, false⟩⟩
        : RState OrchState Unit Empty) = RunnerFinal.pending
      ∨ ((⟨MainPC.ready, 1, [], [(0, Except.ok ())], 0,
            ⟨[DeletionResult.mk "a" true none], 1, false⟩⟩
          : RState OrchState Unit Empty).started = 1
        ∧ (⟨MainPC.ready, 1, [], [(0, Except.ok ())], 0,
            ⟨[DeletionResult.mk "a" true none], 1, false⟩⟩
          : RState OrchState Unit Empty).settled.length = 1
        ∧ runnerFinal 1 (⟨MainPC.ready, 1, [], [(0, Except.ok ())], 0,
            ⟨[DeletionResult.mk "a" true none], 1, false⟩⟩
          : RState OrchState Unit Empty)
            = RunnerFinal.resolved (okValues 1
                (⟨MainPC.ready, 1, [], [(0, Except.ok ())], 0,
                  ⟨[DeletionResult.mk "a" true none], 1, false⟩⟩
                : RState OrchState Unit Empty)))) :=
  ⟨degenerate_limits_C10.1 OrchState ExecOutcome Unit Empty (deletionTaskSem ["a"])
      initOrch 1 JNum.nan rfl [] (initState initOrch) rfl,
   degenerate_limits_C10.2.1 OrchState ExecOutcome Unit Empty (deletionTaskSem ["a"])
      initOrch 1 (JNum.num 0) ExecOutcome.success [] (initState initOrch) rfl rfl,
   degenerate_limits_C10.2.2 OrchState ExecOutcome Unit (deletionTaskSem ["a"])
      initOrch 1 (JNum.num 0)
      [Event.start, Event.finish 0 ExecOutcome.success]
      ⟨MainPC.ready, 1, [], [(0, Except.ok ())], 0,
        ⟨[DeletionResult.mk "a" true none], 1, false⟩⟩ rfl⟩
